import Mathlib

/-!
Verification of the INCAL influencer-dashboard data-cleaning pipeline
(`incal.py`).

The pipeline is embedded shallowly:

* a pandas cell is `Cell` (missing value, text, integer, or float);
  floats are modelled as exact rationals, so floating-point rounding,
  overflow to infinity and the 2^53 integer limit are outside this
  model;
* a table is a list of named columns, matching the columnar operations
  (`apply`, `fillna`, `astype`) used by the source;
* Python string primitives (`strip`, `lower`, `replace`, `in`, `float`,
  `int`, `str`) are modelled on `List Char`; `float()` is modelled on
  finite decimal literals (optional sign, digits, decimal point,
  exponent) — underscore separators and non-ASCII digits accepted by
  Python are outside the model;
* for the cast-step analysis a refined cell `CellF` is used whose floats
  (`FVal`) carry signed infinities: its `float()` model `pyFloatF?`
  restores the overflow to infinity of the real `float()` and accepts the
  explicit `inf`/`infinity` literals, which is exactly the behaviour that
  makes the `astype(int)` failure branch reachable.
-/

namespace Incal

/-! ### Python string primitives -/

/-- Characters stripped by Python `str.strip()` (ASCII whitespace fragment). -/
def pyIsSpace (c : Char) : Bool :=
  c == ' ' || c == '\t' || c == '\n' || c == '\r' || c == '\x0b' || c == '\x0c'

/-- Model of `str.strip()`: drop leading and trailing whitespace. -/
def pyStrip (l : List Char) : List Char :=
  ((l.dropWhile pyIsSpace).reverse.dropWhile pyIsSpace).reverse

/-- Model of `str.lower()` on one ASCII character. -/
def pyToLower (c : Char) : Char :=
  if 65 ≤ c.toNat && c.toNat ≤ 90 then Char.ofNat (c.toNat + 32) else c

/-- Model of `str.lower()`. -/
def pyLower (l : List Char) : List Char := l.map pyToLower

/-- Model of `str.replace(t, '')`: remove every occurrence of the character. -/
def removeAll (t : Char) (l : List Char) : List Char := l.filter (fun c => c != t)

/-- Model of Python `c in s` for a single character. -/
def hasChar (l : List Char) (c : Char) : Bool := l.any (fun x => x == c)

/-! ### Model of Python number parsing -/

/-- ASCII digit test. -/
def isDig (c : Char) : Bool := 48 ≤ c.toNat && c.toNat ≤ 57

/-- Numeric value of a digit run, most significant digit first. -/
def digitsVal (l : List Char) : ℕ := l.foldl (fun a c => 10 * a + (c.toNat - 48)) 0

/-- Value of a nonempty digit run, else `none`. -/
def digitRun? (r : List Char) : Option ℕ :=
  if !r.isEmpty && r.all isDig then some (digitsVal r) else none

/-- Exponent suffix of a float literal: optional sign, then a nonempty digit run. -/
def expVal? (l : List Char) : Option ℤ :=
  if l.head? = some '+' then (digitRun? l.tail).map (fun n => (n : ℤ))
  else if l.head? = some '-' then (digitRun? l.tail).map (fun n => -(n : ℤ))
  else (digitRun? l).map (fun n => (n : ℤ))

/-- Attach an optional `e`/`E` exponent tail to a parsed mantissa. -/
def withExp (mant : ℚ) : List Char → Option ℚ
  | [] => some mant
  | 'e' :: r => (expVal? r).map (fun e => mant * 10 ^ e)
  | 'E' :: r => (expVal? r).map (fun e => mant * 10 ^ e)
  | _ => none

/-- Unsigned body of a float literal: digits, optional point and fraction,
optional exponent; at least one digit must be present in the mantissa. -/
def parseUnsigned (l : List Char) : Option ℚ :=
  match l.dropWhile isDig with
  | '.' :: r =>
    if (l.takeWhile isDig).isEmpty && (r.takeWhile isDig).isEmpty then none
    else withExp ((digitsVal (l.takeWhile isDig) : ℚ) +
      (digitsVal (r.takeWhile isDig) : ℚ) / 10 ^ (r.takeWhile isDig).length)
      (r.dropWhile isDig)
  | r2 =>
    if (l.takeWhile isDig).isEmpty then none
    else withExp (digitsVal (l.takeWhile isDig) : ℚ) r2

/-- Optional leading sign of a float literal. -/
def parseSigned (l : List Char) : Option ℚ :=
  if l.head? = some '-' then (parseUnsigned l.tail).map (fun q => -q)
  else if l.head? = some '+' then parseUnsigned l.tail
  else parseUnsigned l

/-- Model of Python `float(s)` on finite decimal literals (`float()` itself
strips surrounding whitespace). -/
def pyFloat? (l : List Char) : Option ℚ := parseSigned (pyStrip l)

/-- Model of Python `int(s)`: optional sign and a nonempty digit run. -/
def pyInt? (l : List Char) : Option ℤ :=
  let s := pyStrip l
  if s.head? = some '-' then (digitRun? s.tail).map (fun n => -(n : ℤ))
  else if s.head? = some '+' then (digitRun? s.tail).map (fun n => (n : ℤ))
  else (digitRun? s).map (fun n => (n : ℤ))

/-! ### Model of Python number printing -/

/-- A decimal digit as a character. -/
def digitChar : ℕ → Char
  | 0 => '0' | 1 => '1' | 2 => '2' | 3 => '3' | 4 => '4'
  | 5 => '5' | 6 => '6' | 7 => '7' | 8 => '8' | _ => '9'

/-- Decimal digits of a natural number, most significant first (`"0"` for zero). -/
def renderNat (n : ℕ) : List Char :=
  if n = 0 then ['0'] else ((Nat.digits 10 n).map digitChar).reverse

/-- Model of Python `str()` on an integer. -/
def renderInt (n : ℤ) : List Char :=
  (if n < 0 then ['-'] else []) ++ renderNat n.natAbs

/-- Left-pad a digit run with zeros up to length `k`. -/
def padZeros (k : ℕ) (l : List Char) : List Char :=
  List.replicate (k - l.length) '0' ++ l

/-- Model of Python `str()` on a float whose value is a decimal rational:
exact fixed-point decimal with `q.den` fractional digits.  Python prints the
shortest round-tripping form; both renderings parse back to the same value,
which is the only property the pipeline depends on. -/
def renderQ (q : ℚ) : List Char :=
  let d := q.den
  let m := q.num.natAbs * (10 ^ d / d)
  (if q.num < 0 then ['-'] else []) ++
    renderNat (m / 10 ^ d) ++ '.' :: padZeros d (renderNat (m % 10 ^ d))

/-! ### Cells -/

/-- A cell of a pandas table: missing (`NaN`/`None`), text, integer or float.
Floats are modelled as exact rationals. -/
inductive Cell where
  | null : Cell
  | str : String → Cell
  | int : ℤ → Cell
  | float : ℚ → Cell
deriving DecidableEq

/-- Model of Python `str(value)` on a cell (`str(np.nan)` is `"nan"`). -/
def pyStr : Cell → List Char
  | Cell.null => ['n', 'a', 'n']
  | Cell.str s => s.data
  | Cell.int n => renderInt n
  | Cell.float q => renderQ q

/-- Model of Python `str(value)` returning a `String`. -/
def pyStrOf (c : Cell) : String :=
  match c with
  | Cell.str s => s
  | c => String.mk (pyStr c)

/-- Preprocessing of `clean_numeric_value`:
`str(value).strip().lower().replace(',', '').replace('%', '')`. -/
def cleanPrep (l : List Char) : List Char :=
  removeAll '%' (removeAll ',' (pyLower (pyStrip l)))

/-- Branching of `clean_numeric_value` after preprocessing: the `k` suffix is
checked first, then `m`, else a direct parse; a failed parse gives `none`. -/
def cleanChars (l : List Char) : Option ℚ :=
  let s := cleanPrep l
  if hasChar s 'k' then (pyFloat? (removeAll 'k' s)).map (fun q => q * 1000)
  else if hasChar s 'm' then (pyFloat? (removeAll 'm' s)).map (fun q => q * 1000000)
  else pyFloat? s

/-- The function `clean_numeric_value` of `incal.py`: missing values stay
missing, any other value is stringified, normalized and parsed, and a parse
failure yields a missing value. -/
def clean_numeric_value (v : Cell) : Cell :=
  match v with
  | Cell.null => Cell.null
  | v =>
    match cleanChars (pyStr v) with
    | some q => Cell.float q
    | none => Cell.null

/-! ### Tables -/

/-- A table is a list of named columns, in order. -/
abbrev Table := List (String × List Cell)

/-- Column names of a table, in order. -/
def names (t : Table) : List String := t.map Prod.fst

/-- Model of `col in df.columns`. -/
def hasCol (t : Table) (n : String) : Bool := t.any (fun p => p.1 == n)

/-- The values of the (first) column named `n`, if present. -/
def getCol? (t : Table) (n : String) : Option (List Cell) :=
  (t.find? (fun p => p.1 == n)).map Prod.snd

/-- The values of the column named `n`, or `[]` when absent. -/
def colD (t : Table) (n : String) : List Cell := (getCol? t n).getD []

/-- Model of `df[n] = df[n].apply(f)`. -/
def mapCol (t : Table) (n : String) (f : Cell → Cell) : Table :=
  t.map (fun p => if p.1 == n then (p.1, p.2.map f) else p)

/-- Model of `df[n] = v`: replace the column in place, or append it. -/
def setCol (t : Table) (n : String) (v : List Cell) : Table :=
  if hasCol t n then t.map (fun p => if p.1 == n then (p.1, v) else p)
  else t ++ [(n, v)]

/-- Number of rows (length of the first column; `0` for a column-less table). -/
def nrows (t : Table) : ℕ :=
  match t with
  | [] => 0
  | p :: _ => p.2.length

/-! ### The pipeline of incal.py -/

/-- The `required_columns` list, in source order. -/
def required_columns : List String :=
  ["rank", "influence_score", "posts", "followers", "avg_likes",
   "60_day_eng_rate", "new_post_avg_like", "total_likes", "country", "channel_info"]

/-- The `columns_to_clean` list, in source order. -/
def columns_to_clean : List String :=
  ["rank", "followers", "posts", "avg_likes", "new_post_avg_like",
   "total_likes", "60_day_eng_rate", "influence_score"]

/-- The `numeric_columns` list, in source order. -/
def numeric_columns : List String :=
  ["rank", "influence_score", "posts", "followers", "avg_likes",
   "60_day_eng_rate", "new_post_avg_like", "total_likes"]

/-- The columns cast to integer. -/
def int_columns : List String := ["rank", "posts", "followers", "total_likes"]

/-- The columns cast to float. -/
def float_columns : List String :=
  ["influence_score", "avg_likes", "60_day_eng_rate", "new_post_avg_like"]

/-- The four derived column names, in assignment order. -/
def derived_columns : List String :=
  ["Engagement Rate (Calculated)", "Growth Rate in New Post Likes",
   "Like-to-Follower Ratio", "Post Efficiency"]

/-- `missing_columns = [col for col in required_columns if col not in df.columns]`. -/
def missing_columns (t : Table) : List String :=
  required_columns.filter (fun c => !hasCol t c)

/-- Step A: apply `clean_numeric_value` to each column of `columns_to_clean`. -/
def cleanStep (t : Table) : Table :=
  columns_to_clean.foldl (fun a c => mapCol a c clean_numeric_value) t

/-- One cell of `fillna(0)` (pandas inserts the float `0.0` in a float column). -/
def fillZero (c : Cell) : Cell := if c = Cell.null then Cell.float 0 else c

/-- Step B: `fillna(0)` on each numeric column. -/
def fillStep (t : Table) : Table :=
  numeric_columns.foldl (fun a c => mapCol a c fillZero) t

/-- Truncation toward zero, the numpy float-to-int cast (`Int.div` is
T-division, rounding toward zero). -/
def truncQ (q : ℚ) : ℤ := Int.tdiv q.num (q.den : ℤ)

/-- One cell of `astype(int)`: floats truncate, missing values cannot be cast,
text must be a plain integer literal. -/
def castIntCell : Cell → Option Cell
  | Cell.float q => some (Cell.int (truncQ q))
  | Cell.int n => some (Cell.int n)
  | Cell.str s => (pyInt? s.data).map Cell.int
  | Cell.null => none

/-- One cell of `astype(float)`: `NaN` is itself a float and survives the cast. -/
def castFloatCell : Cell → Option Cell
  | Cell.float q => some (Cell.float q)
  | Cell.int n => some (Cell.float (n : ℚ))
  | Cell.str s => (pyFloat? s.data).map Cell.float
  | Cell.null => some Cell.null

/-- One cell of `astype(str)`: always succeeds. -/
def castStrCell (c : Cell) : Cell := Cell.str (pyStrOf c)

/-- Apply a fallible cast to every cell; any failure fails the column. -/
def mapCells (f : Cell → Option Cell) : List Cell → Option (List Cell)
  | [] => some []
  | c :: l =>
    match f c, mapCells f l with
    | some c', some l' => some (c' :: l')
    | _, _ => none

/-- Model of `df[n] = df[n].astype(...)` with a fallible per-cell cast. -/
def castCol (t : Table) (n : String) (f : Cell → Option Cell) : Option Table :=
  match getCol? t n with
  | none => none
  | some col => (mapCells f col).map (fun v => setCol t n v)

/-- Step C: the ten `astype` conversions, in source order; `none` models the
`except` branch reporting a type-conversion error. -/
def castStep (t : Table) : Option Table := do
  let t ← castCol t "rank" castIntCell
  let t ← castCol t "influence_score" castFloatCell
  let t ← castCol t "posts" castIntCell
  let t ← castCol t "followers" castIntCell
  let t ← castCol t "avg_likes" castFloatCell
  let t ← castCol t "60_day_eng_rate" castFloatCell
  let t ← castCol t "new_post_avg_like" castFloatCell
  let t ← castCol t "total_likes" castIntCell
  let t ← castCol t "country" (fun c => some (castStrCell c))
  castCol t "channel_info" (fun c => some (castStrCell c))

/-- Numeric value of a cleaned cell, as read by the derived-metric lambdas. -/
def cellQ : Cell → ℚ
  | Cell.int n => (n : ℚ)
  | Cell.float q => q
  | _ => 0

/-- Engagement-rate lambda: `(avg_likes / followers) * 100 if followers != 0 else 0`.
The whole derived column is float-typed, so the fallback `0` is a float. -/
def engagementRateCell (al fo : Cell) : Cell :=
  if cellQ fo ≠ 0 then Cell.float (cellQ al / cellQ fo * 100) else Cell.float 0

/-- Growth-rate lambda:
`((new_post_avg_like - avg_likes) / avg_likes) * 100 if avg_likes != 0 else 0`. -/
def growthRateCell (npl al : Cell) : Cell :=
  if cellQ al ≠ 0 then Cell.float ((cellQ npl - cellQ al) / cellQ al * 100)
  else Cell.float 0

/-- Like-to-follower lambda: `total_likes / followers if followers != 0 else 0`. -/
def likeFollowerCell (tl fo : Cell) : Cell :=
  if cellQ fo ≠ 0 then Cell.float (cellQ tl / cellQ fo) else Cell.float 0

/-- Post-efficiency lambda: `total_likes / posts if posts != 0 else 0`. -/
def postEfficiencyCell (tl po : Cell) : Cell :=
  if cellQ po ≠ 0 then Cell.float (cellQ tl / cellQ po) else Cell.float 0

/-- Step D: the four row-wise derived-metric assignments, in source order. -/
def deriveStep (t : Table) : Table :=
  let t1 := setCol t "Engagement Rate (Calculated)"
      (List.zipWith engagementRateCell (colD t "avg_likes") (colD t "followers"))
  let t2 := setCol t1 "Growth Rate in New Post Likes"
      (List.zipWith growthRateCell (colD t1 "new_post_avg_like") (colD t1 "avg_likes"))
  let t3 := setCol t2 "Like-to-Follower Ratio"
      (List.zipWith likeFollowerCell (colD t2 "total_likes") (colD t2 "followers"))
  setCol t3 "Post Efficiency"
      (List.zipWith postEfficiencyCell (colD t3 "total_likes") (colD t3 "posts"))

/-- Fatal outcomes of the cleaning run. -/
inductive RunError where
  | missingColumns : List String → RunError
  | typeConversion : RunError
deriving DecidableEq

/-- The cleaning-and-derivation pipeline on a parsed table: schema check,
then Steps A-D; errors model `st.error` followed by `st.stop()`. -/
def pipeline (t : Table) : Except RunError Table :=
  if missing_columns t ≠ [] then
    Except.error (RunError.missingColumns (missing_columns t))
  else
    match castStep (fillStep (cleanStep t)) with
    | none => Except.error RunError.typeConversion
    | some u => Except.ok (deriveStep u)

/-! ### Downstream: filter control and country filter -/

/-- The country column as Python strings. -/
def countryStrings (t : Table) : List String := (colD t "country").map pyStrOf

/-- First-occurrence deduplication with an accumulator of seen values. -/
def pdUniqueAux : List String → List String → List String
  | _, [] => []
  | seen, a :: l =>
    if a ∈ seen then pdUniqueAux seen l else a :: pdUniqueAux (a :: seen) l

/-- Model of `pandas.Series.unique()`: distinct values in order of first
appearance. -/
def pdUnique (l : List String) : List String := pdUniqueAux [] l

/-- The options handed to the country multi-select: `df['country'].unique()`. -/
def countryOptions (t : Table) : List String := pdUnique (countryStrings t)

/-- Keep the cells of a column selected by a boolean row mask. -/
def maskCol (keep : List Bool) (col : List Cell) : List Cell :=
  (List.zip keep col).filterMap (fun p => if p.1 then some p.2 else none)

/-- Model of `df[df['country'].isin(sel)]`. -/
def filterByCountry (t : Table) (sel : List String) : Table :=
  let keep := (countryStrings t).map (fun s => sel.contains s)
  t.map (fun p => (p.1, maskCol keep p.2))

/-- Outcome of one render pass after filtering. -/
inductive RenderOutcome where
  | emptyWarning : RenderOutcome
  | rendered : Table → RenderOutcome
deriving DecidableEq

/-- The empty-result check: `if filtered_df.empty: st.warning(...); st.stop()`. -/
def renderPass (t : Table) (sel : List String) : RenderOutcome :=
  let f := filterByCountry t sel
  if nrows f = 0 then RenderOutcome.emptyWarning else RenderOutcome.rendered f

/-! ### Spec-side normalization for claim C1 -/

/-- Normalization following the words of claim C1 literally: commas are
stripped, but only a TRAILING percent sign is removed; the remaining rules
are word-for-word those of the source. -/
def specNormalizeChars (l : List Char) : Option ℚ :=
  let s0 := removeAll ',' (pyLower (pyStrip l))
  let s := if s0.getLast? = some '%' then s0.dropLast else s0
  if hasChar s 'k' then (pyFloat? (removeAll 'k' s)).map (fun q => q * 1000)
  else if hasChar s 'm' then (pyFloat? (removeAll 'm' s)).map (fun q => q * 1000000)
  else pyFloat? s

/-- Cell-level version of `specNormalizeChars`. -/
def specNormalizeCell (v : Cell) : Cell :=
  match v with
  | Cell.null => Cell.null
  | v =>
    match specNormalizeChars (pyStr v) with
    | some q => Cell.float q
    | none => Cell.null

/-- Amended normalization rules: commas and percent signs are stripped
wherever they occur (one filter pass); everything else is as in the claim. -/
def specNormalizeAmendedChars (l : List Char) : Option ℚ :=
  let s := (pyLower (pyStrip l)).filter (fun c => !(c == ',' || c == '%'))
  if hasChar s 'k' then (pyFloat? (removeAll 'k' s)).map (fun q => q * 1000)
  else if hasChar s 'm' then (pyFloat? (removeAll 'm' s)).map (fun q => q * 1000000)
  else pyFloat? s

/-- Cell-level version of `specNormalizeAmendedChars`. -/
def specNormalizeAmendedCell (v : Cell) : Cell :=
  match v with
  | Cell.null => Cell.null
  | v =>
    match specNormalizeAmendedChars (pyStr v) with
    | some q => Cell.float q
    | none => Cell.null

/-! ### Character-level lemmas -/

/-- Characters produced by the number renderers: digits, point, minus. -/
def plainChar (c : Char) : Prop := isDig c = true ∨ c = '.' ∨ c = '-'

theorem isDig_toNat {c : Char} (h : isDig c = true) : 48 ≤ c.toNat ∧ c.toNat ≤ 57 := by
  simpa [isDig, Bool.and_eq_true, decide_eq_true_eq] using h

theorem plain_toNat {c : Char} (h : plainChar c) : 45 ≤ c.toNat ∧ c.toNat ≤ 57 := by
  rcases h with h | h | h
  · have := isDig_toNat h; omega
  · subst h; decide
  · subst h; decide

theorem plain_toLower {c : Char} (h : plainChar c) : pyToLower c = c := by
  have hb := plain_toNat h
  rw [pyToLower, if_neg]
  simp only [Bool.and_eq_true, decide_eq_true_eq, not_and]
  omega

theorem plain_not_space {c : Char} (h : plainChar c) : pyIsSpace c = false := by
  have hb := plain_toNat h
  have h32 : c.toNat ≠ 32 ∧ c.toNat ≠ 9 ∧ c.toNat ≠ 10 ∧ c.toNat ≠ 13 ∧
      c.toNat ≠ 11 ∧ c.toNat ≠ 12 := by omega
  simp only [pyIsSpace, Bool.or_eq_false_iff, beq_eq_false_iff_ne, ne_eq]
  refine ⟨⟨⟨⟨⟨?_, ?_⟩, ?_⟩, ?_⟩, ?_⟩, ?_⟩ <;> intro hc <;> subst hc <;> simp_all

theorem plain_ne_of_toNat {c x : Char} (h : plainChar c) (hx : 58 ≤ x.toNat) : c ≠ x := by
  intro hc
  have hb := plain_toNat h
  subst hc
  omega

theorem plain_ne_comma {c : Char} (h : plainChar c) : c ≠ ',' := by
  intro hc
  have hb := plain_toNat h
  subst hc
  simp at hb
theorem plain_ne_pct {c : Char} (h : plainChar c) : c ≠ '%' := by
  intro hc
  have hb := plain_toNat h
  subst hc
  simp at hb
theorem plain_ne_k {c : Char} (h : plainChar c) : c ≠ 'k' :=
  plain_ne_of_toNat h (by decide)
theorem plain_ne_m {c : Char} (h : plainChar c) : c ≠ 'm' :=
  plain_ne_of_toNat h (by decide)

theorem digitChar_toNat {d : ℕ} (h : d < 10) : (digitChar d).toNat = 48 + d := by
  interval_cases d <;> rfl

theorem isDig_digitChar {d : ℕ} (h : d < 10) : isDig (digitChar d) = true := by
  interval_cases d <;> rfl

/-! ### No-op lemmas for the preprocessing of plain rendered numbers -/

theorem dropWhile_eq_self {p : Char → Bool} {l : List Char}
    (h : ∀ c ∈ l, p c = false) : l.dropWhile p = l := by
  cases l with
  | nil => rfl
  | cons a l => simp [List.dropWhile_cons, h a (by simp)]

theorem pyStrip_eq_self {l : List Char} (h : ∀ c ∈ l, pyIsSpace c = false) :
    pyStrip l = l := by
  rw [pyStrip, dropWhile_eq_self h, dropWhile_eq_self (by simpa using h)]
  simp

theorem pyLower_eq_self {l : List Char} (h : ∀ c ∈ l, pyToLower c = c) :
    pyLower l = l := by
  induction l with
  | nil => rfl
  | cons a l ih =>
    have ha := h a (by simp)
    have hl := ih fun c hc => h c (by simp [hc])
    simp only [pyLower, List.map_cons] at *
    rw [ha, hl]

theorem removeAll_eq_self {t : Char} {l : List Char} (h : ∀ c ∈ l, c ≠ t) :
    removeAll t l = l := by
  rw [removeAll, List.filter_eq_self]
  intro a ha
  simpa using h a ha

theorem hasChar_eq_false {l : List Char} {c : Char} (h : ∀ x ∈ l, x ≠ c) :
    hasChar l c = false := by
  rw [hasChar, List.any_eq_false]
  intro x hx
  simpa using h x hx

/-- On a run of plain rendered characters, `clean_numeric_value`'s
preprocessing and suffix dispatch reduce to a direct parse. -/
theorem cleanChars_plain {l : List Char} (h : ∀ c ∈ l, plainChar c) :
    cleanChars l = pyFloat? l := by
  have hstrip : pyStrip l = l := pyStrip_eq_self fun c hc => plain_not_space (h c hc)
  have hlower : pyLower l = l := pyLower_eq_self fun c hc => plain_toLower (h c hc)
  have hcomma : removeAll ',' l = l := removeAll_eq_self fun c hc => plain_ne_comma (h c hc)
  have hpct : removeAll '%' l = l := removeAll_eq_self fun c hc => plain_ne_pct (h c hc)
  have hprep : cleanPrep l = l := by rw [cleanPrep, hstrip, hlower, hcomma, hpct]
  rw [cleanChars, hprep, hasChar_eq_false fun c hc => plain_ne_k (h c hc),
    hasChar_eq_false fun c hc => plain_ne_m (h c hc)]
  simp

/-! ### Digit-run values -/

theorem digitsVal_go (l : List Char) (a : ℕ) :
    l.foldl (fun a c => 10 * a + (c.toNat - 48)) a = a * 10 ^ l.length + digitsVal l := by
  induction l generalizing a with
  | nil => simp [digitsVal]
  | cons c l ih =>
    simp only [digitsVal, List.foldl_cons, List.length_cons] at *
    rw [ih, ih (10 * 0 + (c.toNat - 48))]
    ring

theorem digitsVal_cons (c : Char) (l : List Char) :
    digitsVal (c :: l) = (c.toNat - 48) * 10 ^ l.length + digitsVal l := by
  rw [digitsVal, List.foldl_cons, digitsVal_go]
  norm_num

theorem digitsVal_append (a b : List Char) :
    digitsVal (a ++ b) = digitsVal a * 10 ^ b.length + digitsVal b := by
  rw [digitsVal, List.foldl_append, digitsVal_go]
  rfl

theorem digitsVal_replicate_zero (k : ℕ) : digitsVal (List.replicate k '0') = 0 := by
  induction k with
  | zero => rfl
  | succ k ih =>
    rw [List.replicate_succ, digitsVal_cons, ih]
    norm_num [show '0'.toNat = 48 from rfl]

theorem digitsVal_padZeros (k : ℕ) (l : List Char) :
    digitsVal (padZeros k l) = digitsVal l := by
  rw [padZeros, digitsVal_append, digitsVal_replicate_zero]
  simp

theorem digitsVal_ofDigits (L : List ℕ) (hL : ∀ d ∈ L, d < 10) :
    digitsVal ((L.map digitChar).reverse) = Nat.ofDigits 10 L := by
  induction L with
  | nil => simp [digitsVal, Nat.ofDigits_nil]
  | cons d L ih =>
    have hd : d < 10 := hL d (by simp)
    rw [List.map_cons, List.reverse_cons, digitsVal_append,
      ih fun x hx => hL x (by simp [hx]), Nat.ofDigits_cons]
    have h1 : digitsVal [digitChar d] = d := by
      rw [digitsVal_cons, digitChar_toNat hd]
      simp [digitsVal]
    rw [h1]
    simp
    ring

theorem digitsVal_renderNat (n : ℕ) : digitsVal (renderNat n) = n := by
  rw [renderNat]
  by_cases h : n = 0
  · subst h; rfl
  · rw [if_neg h, digitsVal_ofDigits _ (fun d hd => Nat.digits_lt_base (by norm_num) hd),
      Nat.ofDigits_digits]

theorem renderNat_chars {n : ℕ} {c : Char} (h : c ∈ renderNat n) : isDig c = true := by
  rw [renderNat] at h
  by_cases hn : n = 0
  · subst hn; simp at h; subst h; rfl
  · rw [if_neg hn, List.mem_reverse, List.mem_map] at h
    obtain ⟨d, hd, rfl⟩ := h
    exact isDig_digitChar (Nat.digits_lt_base (by norm_num) hd)

theorem renderNat_plain {n : ℕ} {c : Char} (h : c ∈ renderNat n) : plainChar c :=
  Or.inl (renderNat_chars h)

theorem renderNat_ne_nil (n : ℕ) : renderNat n ≠ [] := by
  rw [renderNat]
  by_cases hn : n = 0
  · subst hn; simp
  · rw [if_neg hn]
    simp [Nat.digits_ne_nil_iff_ne_zero.mpr hn]

theorem renderNat_length_le {n k : ℕ} (h : n < 10 ^ k) (hk : 1 ≤ k) :
    (renderNat n).length ≤ k := by
  rw [renderNat]
  by_cases hn : n = 0
  · subst hn; simpa using hk
  · rw [if_neg hn]
    simp only [List.length_reverse, List.length_map]
    rw [Nat.digits_len 10 n (by norm_num) hn]
    have hlog : Nat.log 10 n < k := (Nat.lt_pow_iff_log_lt (by norm_num) hn).mp h
    omega

/-! ### Splitting a rendered literal into mantissa parts -/

theorem takeWhile_append_all {p : Char → Bool} :
    ∀ (a b : List Char), (∀ c ∈ a, p c = true) →
      (a ++ b).takeWhile p = a ++ b.takeWhile p ∧ (a ++ b).dropWhile p = b.dropWhile p
  | [], b, _ => by simp
  | c :: a, b, h => by
    have hc : p c = true := h c (by simp)
    have ih := takeWhile_append_all a b fun x hx => h x (by simp [hx])
    simp [List.takeWhile_cons, List.dropWhile_cons, hc, ih.1, ih.2]

theorem takeWhile_stops {p : Char → Bool} {c : Char} (b : List Char)
    (hc : p c = false) : (c :: b).takeWhile p = [] ∧ (c :: b).dropWhile p = c :: b := by
  simp [List.takeWhile_cons, List.dropWhile_cons, hc]

/-- Parsing an unsigned literal of the shape `digits ++ "." ++ digits`. -/
theorem parseUnsigned_shape (a b : List Char) (ha : ∀ c ∈ a, isDig c = true)
    (hb : ∀ c ∈ b, isDig c = true) (hne : a ≠ []) :
    parseUnsigned (a ++ '.' :: b) =
      some ((digitsVal a : ℚ) + (digitsVal b : ℚ) / 10 ^ b.length) := by
  have h1 : (a ++ '.' :: b).takeWhile isDig = a := by
    rw [(takeWhile_append_all a ('.' :: b) ha).1,
      (takeWhile_stops (p := isDig) (c := '.') b (by decide)).1, List.append_nil]
  have h2 : (a ++ '.' :: b).dropWhile isDig = '.' :: b := by
    rw [(takeWhile_append_all a ('.' :: b) ha).2,
      (takeWhile_stops (p := isDig) (c := '.') b (by decide)).2]
  have h3 : b.takeWhile isDig = b := by
    have h := takeWhile_append_all b ([] : List Char) hb
    simpa using h.1
  have h4 : b.dropWhile isDig = [] := by
    have h := takeWhile_append_all b ([] : List Char) hb
    simpa using h.2
  have h5 : a.isEmpty = false := by
    cases a with
    | nil => exact absurd rfl hne
    | cons c a => rfl
  simp only [parseUnsigned, h1, h2, h3, h4, h5, Bool.false_and, if_false,
    Bool.false_eq_true, withExp]

/-- Parsing an unsigned literal that is a bare digit run. -/
theorem parseUnsigned_digits (a : List Char) (ha : ∀ c ∈ a, isDig c = true)
    (hne : a ≠ []) : parseUnsigned a = some (digitsVal a : ℚ) := by
  have h1 : a.takeWhile isDig = a := by
    have h := takeWhile_append_all a ([] : List Char) ha
    simpa using h.1
  have h2 : a.dropWhile isDig = [] := by
    have h := takeWhile_append_all a ([] : List Char) ha
    simpa using h.2
  have h5 : a.isEmpty = false := by
    cases a with
    | nil => exact absurd rfl hne
    | cons c a => rfl
  simp only [parseUnsigned, h1, h2, h5, Bool.false_eq_true, if_false, withExp]

/-! ### Round-trip: printing then parsing is the identity -/

theorem pyStrip_plain {l : List Char} (h : ∀ c ∈ l, plainChar c) : pyStrip l = l :=
  pyStrip_eq_self fun c hc => plain_not_space (h c hc)

theorem renderInt_plain {n : ℤ} {c : Char} (h : c ∈ renderInt n) : plainChar c := by
  rw [renderInt] at h
  rcases List.mem_append.mp h with h | h
  · right; right
    by_cases hn : n < 0
    · rw [if_pos hn] at h; simpa using h
    · rw [if_neg hn] at h; simp at h
  · exact renderNat_plain h

theorem pyFloat?_renderInt (n : ℤ) : pyFloat? (renderInt n) = some (n : ℚ) := by
  rw [pyFloat?, pyStrip_plain fun c hc => renderInt_plain hc]
  obtain ⟨c, a, hca⟩ : ∃ c a, renderNat n.natAbs = c :: a := by
    rcases hr : renderNat n.natAbs with _ | ⟨c, a⟩
    · exact absurd hr (renderNat_ne_nil _)
    · exact ⟨c, a, rfl⟩
  have hdig : isDig c = true := renderNat_chars (by rw [hca]; simp)
  have hcm : c ≠ '-' ∧ c ≠ '+' := by
    have := isDig_toNat hdig
    constructor <;> intro hc <;> subst hc <;> simp_all
  have hval : parseUnsigned (renderNat n.natAbs) = some (n.natAbs : ℚ) := by
    rw [parseUnsigned_digits _ (fun x hx => renderNat_chars hx) (renderNat_ne_nil _),
      digitsVal_renderNat]
  by_cases hn : n < 0
  · rw [renderInt, if_pos hn, parseSigned]
    simp only [List.singleton_append, List.head?_cons, List.tail_cons]
    rw [if_pos trivial, hval]
    simp only [Option.map_some', Option.some.injEq]
    have habs : (n.natAbs : ℤ) = -n := by omega
    rw [← Int.cast_natCast (R := ℚ), habs]
    push_cast
    ring
  · rw [renderInt, if_neg hn]
    simp only [List.nil_append]
    have hh : (renderNat n.natAbs).head? = some c := by rw [hca]; rfl
    rw [parseSigned, hh, if_neg (by simp [hcm.1]), if_neg (by simp [hcm.2]), hval]
    have habs : (n.natAbs : ℤ) = n := by omega
    rw [Option.some.injEq, ← Int.cast_natCast (R := ℚ), habs]

/-! ### Decimal rationals: the values representable by the parsed literals -/

/-- A rational with a finite decimal expansion.  Every value produced by the
normalization step is of this form, which is what makes printing and
re-parsing the identity. -/
def IsDec (q : ℚ) : Prop := ∃ (z : ℤ) (s : ℕ), q = (z : ℚ) / 10 ^ s

theorem IsDec.den_dvd {q : ℚ} (h : IsDec q) : ∃ s : ℕ, q.den ∣ 10 ^ s := by
  obtain ⟨z, s, rfl⟩ := h
  refine ⟨s, ?_⟩
  have h1 : ((z : ℚ) / 10 ^ s) = Rat.divInt z (10 ^ s) := by
    rw [Rat.divInt_eq_div]
    push_cast
    ring
  rw [h1]
  have h2 := Rat.den_dvd z (10 ^ s)
  exact_mod_cast h2

theorem dec_den_dvd_self {d : ℕ} (hd : 0 < d) {s : ℕ} (h : d ∣ 10 ^ s) :
    d ∣ 10 ^ d := by
  have h10 : (10 : ℕ) ^ s = 2 ^ s * 5 ^ s := by
    rw [← Nat.mul_pow]
  rw [h10] at h
  obtain ⟨d2, d5, h2, h5, hd25⟩ := exists_dvd_and_dvd_of_dvd_mul h
  obtain ⟨a, _, rfl⟩ := (Nat.dvd_prime_pow Nat.prime_two).mp h2
  obtain ⟨b, _, rfl⟩ := (Nat.dvd_prime_pow Nat.prime_five).mp h5
  have had : 2 ^ a ≤ d := Nat.le_of_dvd hd ⟨5 ^ b, hd25⟩
  have hbd : 5 ^ b ≤ d := Nat.le_of_dvd hd ⟨2 ^ a, by rw [hd25]; ring⟩
  have ha2 : a < 2 ^ a := Nat.lt_two_pow a
  have hb2 : b < 2 ^ b := Nat.lt_two_pow b
  have hb5 : (2 : ℕ) ^ b ≤ 5 ^ b := Nat.pow_le_pow_left (by norm_num) b
  have hale : a ≤ d := by omega
  have hble : b ≤ d := by omega
  have hdvd : (2 : ℕ) ^ a * 5 ^ b ∣ 2 ^ d * 5 ^ d :=
    mul_dvd_mul (pow_dvd_pow 2 hale) (pow_dvd_pow 5 hble)
  have h10d : (10 : ℕ) ^ d = 2 ^ d * 5 ^ d := by rw [← Nat.mul_pow]
  rw [h10d]
  nth_rewrite 1 [hd25]
  exact hdvd

theorem IsDec.den_dvd_pow_den {q : ℚ} (h : IsDec q) : q.den ∣ 10 ^ q.den := by
  obtain ⟨s, hs⟩ := h.den_dvd
  exact dec_den_dvd_self q.den_pos hs

/-! ### Round-trip for rendered floats -/

theorem padZeros_digits {k : ℕ} {l : List Char} (hl : ∀ c ∈ l, isDig c = true) :
    ∀ c ∈ padZeros k l, isDig c = true := by
  intro c hc
  rw [padZeros, List.mem_append] at hc
  rcases hc with hc | hc
  · rw [List.eq_of_mem_replicate hc]; rfl
  · exact hl c hc

theorem padZeros_length {k : ℕ} {l : List Char} (h : l.length ≤ k) :
    (padZeros k l).length = k := by
  rw [padZeros, List.length_append, List.length_replicate]
  omega

theorem renderQ_plain {q : ℚ} {c : Char} (h : c ∈ renderQ q) : plainChar c := by
  rw [renderQ, List.mem_append] at h
  rcases h with h | h
  · rw [List.mem_append] at h
    rcases h with h | h
    · right; right
      by_cases hn : q.num < 0
      · rw [if_pos hn] at h; simpa using h
      · rw [if_neg hn] at h; simp at h
    · exact renderNat_plain h
  · rcases List.mem_cons.mp h with h | h
    · right; left; exact h
    · exact Or.inl (padZeros_digits (fun x hx => renderNat_chars hx) c h)

theorem parseSigned_of_digit_head {c : Char} {a : List Char}
    (hdig : isDig c = true) : parseSigned (c :: a) = parseUnsigned (c :: a) := by
  have hb := isDig_toNat hdig
  have hcm : c ≠ '-' ∧ c ≠ '+' := by
    constructor <;> intro hc <;> subst hc <;> simp_all
  rw [parseSigned]
  simp only [List.head?_cons]
  rw [if_neg (by simp [hcm.1]), if_neg (by simp [hcm.2])]

theorem pyFloat?_renderQ {q : ℚ} (hdvd : q.den ∣ 10 ^ q.den) :
    pyFloat? (renderQ q) = some q := by
  rw [pyFloat?, pyStrip_plain fun c hc => renderQ_plain hc]
  simp only [renderQ]
  set M := q.num.natAbs * (10 ^ q.den / q.den) with hM
  set A := renderNat (M / 10 ^ q.den) with hA
  set B := padZeros q.den (renderNat (M % 10 ^ q.den)) with hB
  have hd1 : 1 ≤ q.den := q.den_pos
  have hp0 : (0 : ℕ) < 10 ^ q.den := pow_pos (by norm_num) _
  have hden0 : ((q.den : ℚ)) ≠ 0 := by
    exact_mod_cast q.den_nz
  have h10 : ((10 : ℚ) ^ q.den) ≠ 0 := by positivity
  have hlt : M % 10 ^ q.den < 10 ^ q.den := Nat.mod_lt _ hp0
  have hBlen : B.length = q.den := padZeros_length (renderNat_length_le hlt hd1)
  have hBdig : ∀ c ∈ B, isDig c = true :=
    padZeros_digits fun c hc => renderNat_chars hc
  have hAdig : ∀ c ∈ A, isDig c = true := fun c hc => renderNat_chars hc
  have hAne : A ≠ [] := renderNat_ne_nil _
  have hvalB : digitsVal B = M % 10 ^ q.den := by
    rw [hB, digitsVal_padZeros, digitsVal_renderNat]
  have hvalA : digitsVal A = M / 10 ^ q.den := digitsVal_renderNat _
  have hparse : parseUnsigned (A ++ '.' :: B) = some ((M : ℚ) / 10 ^ q.den) := by
    rw [parseUnsigned_shape A B hAdig hBdig hAne, hvalA, hvalB, hBlen]
    congr 1
    have key : M / 10 ^ q.den * 10 ^ q.den + M % 10 ^ q.den = M := by
      rw [Nat.mul_comm]
      exact Nat.div_add_mod M (10 ^ q.den)
    rw [eq_div_iff h10, add_mul, div_mul_cancel₀ _ h10]
    exact_mod_cast key
  have hMq : (M : ℚ) / 10 ^ q.den = (q.num.natAbs : ℚ) / q.den := by
    have hcast : ((10 ^ q.den / q.den : ℕ) : ℚ) = (10 : ℚ) ^ q.den / q.den := by
      rw [Nat.cast_div hdvd hden0]
      push_cast
      ring
    rw [hM]
    push_cast [hcast]
    field_simp
    ring
  by_cases hn : q.num < 0
  · rw [if_pos hn]
    simp only [List.cons_append, List.nil_append]
    rw [parseSigned]
    simp only [List.head?_cons, List.tail_cons]
    rw [if_pos trivial, hparse]
    simp only [Option.map_some', Option.some.injEq, hMq]
    have habs : ((q.num.natAbs : ℚ)) = -((q.num : ℚ)) := by
      rw [Int.cast_natAbs, abs_of_neg hn]
      push_cast
      ring
    rw [habs, neg_div, neg_neg, Rat.num_div_den]
  · rw [if_neg hn]
    simp only [List.nil_append]
    rcases hA' : A with _ | ⟨c, a⟩
    · exact absurd hA' hAne
    · have hcdig : isDig c = true := hAdig c (by rw [hA']; simp)
      rw [List.cons_append, parseSigned_of_digit_head hcdig,
        ← List.cons_append, ← hA', hparse, hMq]
      have habs : ((q.num.natAbs : ℚ)) = ((q.num : ℚ)) := by
        rw [Int.cast_natAbs, abs_of_nonneg (not_lt.mp hn)]
      rw [habs, Rat.num_div_den]

/-! ### Normalization of already-clean values is the identity -/

theorem cleanChars_renderQ {q : ℚ} (h : IsDec q) : cleanChars (renderQ q) = some q := by
  rw [cleanChars_plain fun c hc => renderQ_plain hc, pyFloat?_renderQ h.den_dvd_pow_den]

theorem cleanChars_renderInt (n : ℤ) : cleanChars (renderInt n) = some (n : ℚ) := by
  rw [cleanChars_plain fun c hc => renderInt_plain hc, pyFloat?_renderInt]

theorem clean_float_id {q : ℚ} (h : IsDec q) :
    clean_numeric_value (Cell.float q) = Cell.float q := by
  simp only [clean_numeric_value, pyStr, cleanChars_renderQ h]

theorem clean_int_to_float (n : ℤ) :
    clean_numeric_value (Cell.int n) = Cell.float (n : ℚ) := by
  simp only [clean_numeric_value, pyStr, cleanChars_renderInt]

/-! ### Every parsed value is a decimal rational -/

theorem IsDec_natCast (n : ℕ) : IsDec (n : ℚ) :=
  ⟨n, 0, by norm_num⟩

theorem IsDec_mant (a b k : ℕ) : IsDec ((a : ℚ) + (b : ℚ) / 10 ^ k) := by
  refine ⟨a * 10 ^ k + b, k, ?_⟩
  have h10 : ((10 : ℚ) ^ k) ≠ 0 := by positivity
  rw [eq_div_iff h10, add_mul, div_mul_cancel₀ _ h10]
  push_cast
  ring

theorem IsDec.neg {q : ℚ} (h : IsDec q) : IsDec (-q) := by
  obtain ⟨z, s, rfl⟩ := h
  exact ⟨-z, s, by push_cast; ring⟩

theorem IsDec.mul_pow10 {q : ℚ} (h : IsDec q) (k : ℕ) : IsDec (q * 10 ^ k) := by
  obtain ⟨z, s, rfl⟩ := h
  exact ⟨z * 10 ^ k, s, by push_cast; ring⟩

theorem IsDec.mul_zpow {q : ℚ} (h : IsDec q) (e : ℤ) : IsDec (q * 10 ^ e) := by
  obtain ⟨z, s, rfl⟩ := h
  cases e with
  | ofNat k =>
    refine ⟨z * 10 ^ k, s, ?_⟩
    rw [Int.ofNat_eq_coe, zpow_natCast]
    push_cast
    ring
  | negSucc k =>
    refine ⟨z, s + (k + 1), ?_⟩
    rw [zpow_negSucc, ← div_eq_mul_inv, div_div, ← pow_add]

theorem IsDec.mul_k {q : ℚ} (h : IsDec q) : IsDec (q * 1000) := by
  have h3 := h.mul_pow10 3
  norm_num at h3
  exact h3

theorem IsDec.mul_m {q : ℚ} (h : IsDec q) : IsDec (q * 1000000) := by
  have h6 := h.mul_pow10 6
  norm_num at h6
  exact h6

theorem withExp_isDec {mant : ℚ} {l : List Char} {q : ℚ} (hm : IsDec mant)
    (h : withExp mant l = some q) : IsDec q := by
  unfold withExp at h
  split at h
  · exact (Option.some.injEq _ _ ▸ h) ▸ hm
  · obtain ⟨e, _, rfl⟩ := Option.map_eq_some'.mp h
    exact hm.mul_zpow e
  · obtain ⟨e, _, rfl⟩ := Option.map_eq_some'.mp h
    exact hm.mul_zpow e
  · exact absurd h (by simp)

theorem parseUnsigned_isDec {l : List Char} {q : ℚ}
    (h : parseUnsigned l = some q) : IsDec q := by
  rw [parseUnsigned] at h
  split at h
  · split at h
    · exact absurd h (by simp)
    · exact withExp_isDec (IsDec_mant _ _ _) h
  · split at h
    · exact absurd h (by simp)
    · exact withExp_isDec (IsDec_natCast _) h

theorem parseSigned_isDec {l : List Char} {q : ℚ}
    (h : parseSigned l = some q) : IsDec q := by
  rw [parseSigned] at h
  split at h
  · obtain ⟨p, hp, rfl⟩ := Option.map_eq_some'.mp h
    exact (parseUnsigned_isDec hp).neg
  · split at h
    · exact parseUnsigned_isDec h
    · exact parseUnsigned_isDec h

theorem pyFloat?_isDec {l : List Char} {q : ℚ} (h : pyFloat? l = some q) : IsDec q :=
  parseSigned_isDec h

theorem cleanChars_isDec {l : List Char} {q : ℚ} (h : cleanChars l = some q) :
    IsDec q := by
  rw [cleanChars] at h
  split at h
  · obtain ⟨p, hp, rfl⟩ := Option.map_eq_some'.mp h
    exact (pyFloat?_isDec hp).mul_k
  · split at h
    · obtain ⟨p, hp, rfl⟩ := Option.map_eq_some'.mp h
      exact (pyFloat?_isDec hp).mul_m
    · exact pyFloat?_isDec h

theorem IsDec_zero : IsDec (0 : ℚ) := ⟨0, 0, by norm_num⟩

theorem IsDec_intCast (n : ℤ) : IsDec (n : ℚ) := ⟨n, 0, by norm_num⟩

/-- The shape of any output of `clean_numeric_value`: missing, or a decimal
float. -/
theorem clean_shape (v : Cell) :
    clean_numeric_value v = Cell.null ∨
      ∃ q, clean_numeric_value v = Cell.float q ∧ IsDec q := by
  cases v with
  | null => exact Or.inl rfl
  | str s =>
    rcases h : cleanChars (pyStr (Cell.str s)) with _ | q
    · exact Or.inl (by simp [clean_numeric_value, h])
    · exact Or.inr ⟨q, by simp [clean_numeric_value, h], cleanChars_isDec h⟩
  | int n =>
    rcases h : cleanChars (pyStr (Cell.int n)) with _ | q
    · exact Or.inl (by simp [clean_numeric_value, h])
    · exact Or.inr ⟨q, by simp [clean_numeric_value, h], cleanChars_isDec h⟩
  | float x =>
    rcases h : cleanChars (pyStr (Cell.float x)) with _ | q
    · exact Or.inl (by simp [clean_numeric_value, h])
    · exact Or.inr ⟨q, by simp [clean_numeric_value, h], cleanChars_isDec h⟩

/-- Truncation is the identity on integers. -/
theorem truncQ_intCast (n : ℤ) : truncQ (n : ℚ) = n := by
  rw [truncQ, Rat.num_intCast, Rat.den_intCast]
  simp only [Int.natCast_one]
  exact Int.tdiv_one n

/-! ### Table-operation lemmas -/

theorem find?_col_cons_pos {p0 : String × List Cell} {t : Table} {n : String}
    (h : (p0.1 == n) = true) :
    (p0 :: t).find? (fun q => q.1 == n) = some p0 :=
  List.find?_cons_of_pos _ h

theorem find?_col_cons_neg {p0 : String × List Cell} {t : Table} {n : String}
    (h : ¬((p0.1 == n) = true)) :
    (p0 :: t).find? (fun q => q.1 == n) = t.find? (fun q => q.1 == n) :=
  List.find?_cons_of_neg _ h

theorem names_mapCol (t : Table) (n : String) (f : Cell → Cell) :
    names (mapCol t n f) = names t := by
  induction t with
  | nil => rfl
  | cons p t ih =>
    simp only [mapCol, names, List.map_cons] at *
    by_cases hp : p.1 == n
    · rw [if_pos hp]
      exact congrArg (p.1 :: ·) ih
    · rw [if_neg hp]
      exact congrArg (p.1 :: ·) ih

theorem names_setCol_of_hasCol {t : Table} {n : String} (v : List Cell)
    (h : hasCol t n = true) : names (setCol t n v) = names t := by
  rw [setCol, if_pos h]
  clear h
  induction t with
  | nil => rfl
  | cons p t ih =>
    simp only [names, List.map_cons] at *
    by_cases hp : p.1 == n
    · rw [if_pos hp]
      exact congrArg (p.1 :: ·) ih
    · rw [if_neg hp]
      exact congrArg (p.1 :: ·) ih

theorem hasCol_iff_mem_names (t : Table) (n : String) :
    hasCol t n = true ↔ n ∈ names t := by
  rw [hasCol, List.any_eq_true]
  constructor
  · rintro ⟨p, hp, hpe⟩
    rw [names, List.mem_map]
    exact ⟨p, hp, beq_iff_eq.mp hpe⟩
  · intro h
    rw [names, List.mem_map] at h
    obtain ⟨p, hp, hpe⟩ := h
    exact ⟨p, hp, beq_iff_eq.mpr hpe⟩

theorem getCol?_isSome_of_hasCol {t : Table} {n : String} (h : hasCol t n = true) :
    ∃ col, getCol? t n = some col := by
  rw [hasCol, List.any_eq_true] at h
  obtain ⟨p, hp, hpe⟩ := h
  induction t with
  | nil => simp at hp
  | cons p0 t ih =>
    by_cases h0 : p0.1 == n
    · exact ⟨p0.2, by rw [getCol?, find?_col_cons_pos h0]; rfl⟩
    · rcases List.mem_cons.mp hp with rfl | hp'
      · exact absurd hpe h0
      · obtain ⟨col, hcol⟩ := ih hp'
        exact ⟨col, by rw [getCol?, find?_col_cons_neg h0]; exact hcol⟩

theorem getCol?_mapCol_same (t : Table) (n : String) (f : Cell → Cell) :
    getCol? (mapCol t n f) n = (getCol? t n).map (List.map f) := by
  induction t with
  | nil => rfl
  | cons p t ih =>
    simp only [mapCol, List.map_cons] at *
    by_cases hp : p.1 == n
    · rw [if_pos hp, getCol?,
        find?_col_cons_pos (show (((p.1, List.map f p.2)).1 == n) = true from hp),
        getCol?, find?_col_cons_pos hp]
      rfl
    · rw [if_neg hp, getCol?, find?_col_cons_neg hp, getCol?, find?_col_cons_neg hp]
      exact ih

theorem getCol?_mapCol_ne (t : Table) {n n' : String} (f : Cell → Cell)
    (h : n' ≠ n) : getCol? (mapCol t n f) n' = getCol? t n' := by
  induction t with
  | nil => rfl
  | cons p t ih =>
    simp only [mapCol, List.map_cons] at *
    by_cases hp : p.1 == n
    · have hp' : ¬((p.1 == n') = true) := by
        rw [beq_iff_eq] at hp ⊢
        rw [hp]
        exact fun he => h he.symm
      rw [if_pos hp, getCol?,
        find?_col_cons_neg (show ¬((((p.1, List.map f p.2)).1 == n') = true) from hp'),
        getCol?, find?_col_cons_neg hp']
      exact ih
    · rw [if_neg hp]
      by_cases hq : p.1 == n'
      · rw [getCol?, find?_col_cons_pos hq, getCol?, find?_col_cons_pos hq]
      · rw [getCol?, find?_col_cons_neg hq, getCol?, find?_col_cons_neg hq]
        exact ih

theorem getCol?_setCol_same {t : Table} {n : String} (v : List Cell)
    (h : hasCol t n = true) : getCol? (setCol t n v) n = some v := by
  rw [setCol, if_pos h]
  rw [hasCol, List.any_eq_true] at h
  obtain ⟨p, hp, hpe⟩ := h
  induction t with
  | nil => simp at hp
  | cons p0 t ih =>
    simp only [List.map_cons]
    by_cases h0 : p0.1 == n
    · rw [if_pos h0, getCol?,
        find?_col_cons_pos (show (((p0.1, v)).1 == n) = true from h0)]
      rfl
    · rcases List.mem_cons.mp hp with rfl | hp'
      · exact absurd hpe h0
      · rw [if_neg h0, getCol?, find?_col_cons_neg h0]
        exact ih hp'

theorem getCol?_setCol_append {t : Table} {n : String} (v : List Cell)
    (h : hasCol t n = false) : getCol? (setCol t n v) n = some v := by
  rw [setCol, if_neg (by simp [h])]
  rw [hasCol, List.any_eq_false] at h
  induction t with
  | nil =>
    rw [List.nil_append, getCol?, find?_col_cons_pos (by simp)]
    rfl
  | cons p0 t ih =>
    have h0 : ¬((p0.1 == n) = true) := by
      have := h p0 (by simp)
      simpa using this
    rw [List.cons_append, getCol?, find?_col_cons_neg h0]
    exact ih fun p hp => h p (by simp [hp])

theorem getCol?_setCol (t : Table) (n : String) (v : List Cell) :
    getCol? (setCol t n v) n = some v := by
  by_cases h : hasCol t n
  · exact getCol?_setCol_same v h
  · exact getCol?_setCol_append v (by simpa using h)

theorem getCol?_setCol_ne (t : Table) {n n' : String} (v : List Cell)
    (h : n' ≠ n) : getCol? (setCol t n v) n' = getCol? t n' := by
  rw [setCol]
  by_cases hh : hasCol t n
  · rw [if_pos hh]
    clear hh
    induction t with
    | nil => rfl
    | cons p0 t ih =>
      simp only [List.map_cons]
      by_cases h0 : p0.1 == n
      · have h0' : ¬((p0.1 == n') = true) := by
          rw [beq_iff_eq] at h0 ⊢
          rw [h0]
          exact fun he => h he.symm
        rw [if_pos h0, getCol?,
          find?_col_cons_neg (show ¬((((p0.1, v)).1 == n') = true) from h0'),
          getCol?, find?_col_cons_neg h0']
        exact ih
      · rw [if_neg h0]
        by_cases hq : p0.1 == n'
        · rw [getCol?, find?_col_cons_pos hq, getCol?, find?_col_cons_pos hq]
        · rw [getCol?, find?_col_cons_neg hq, getCol?, find?_col_cons_neg hq]
          exact ih
  · rw [if_neg hh]
    clear hh
    induction t with
    | nil =>
      rw [List.nil_append, getCol?, find?_col_cons_neg (by simp; exact fun he => h he.symm)]
      rfl
    | cons p0 t ih =>
      rw [List.cons_append]
      by_cases hq : p0.1 == n'
      · rw [getCol?, find?_col_cons_pos hq, getCol?, find?_col_cons_pos hq]
      · rw [getCol?, find?_col_cons_neg hq, getCol?, find?_col_cons_neg hq]
        exact ih

theorem mem_iff_getCol? {t : Table} (hnd : (names t).Nodup) (p : String × List Cell) :
    p ∈ t ↔ getCol? t p.1 = some p.2 := by
  induction t with
  | nil => simp [getCol?]
  | cons p0 t ih =>
    simp only [names, List.map_cons, List.nodup_cons] at hnd
    constructor
    · intro hp
      rcases List.mem_cons.mp hp with rfl | hp'
      · rw [getCol?, find?_col_cons_pos (by simp)]
        rfl
      · have hne : ¬((p0.1 == p.1) = true) := by
          rw [beq_iff_eq]
          intro he
          exact hnd.1 (he ▸ List.mem_map.mpr ⟨p, hp', rfl⟩)
        rw [getCol?, find?_col_cons_neg hne]
        exact (ih hnd.2).mp hp'
    · intro hget
      by_cases h0 : p0.1 == p.1
      · rw [getCol?, find?_col_cons_pos h0] at hget
        simp only [Option.map_some', Option.some.injEq] at hget
        rw [beq_iff_eq] at h0
        have hpp : p0 = p := Prod.ext h0 hget
        rw [← hpp]
        simp
      · rw [getCol?, find?_col_cons_neg h0] at hget
        exact List.mem_cons_of_mem _ ((ih hnd.2).mpr hget)

theorem map_if_not_mem {t : Table} {n : String} {v : List Cell}
    (h : ∀ p ∈ t, ¬((p.1 == n) = true)) :
    t.map (fun p => if p.1 == n then (p.1, v) else p) = t := by
  induction t with
  | nil => rfl
  | cons p0 t ih =>
    rw [List.map_cons, if_neg (h p0 (by simp)), ih fun p hp => h p (by simp [hp])]

theorem hasCol_of_getCol? {t : Table} {n : String} {v : List Cell}
    (hget : getCol? t n = some v) : hasCol t n = true := by
  rcases hf : t.find? (fun p => p.1 == n) with _ | p
  · rw [getCol?, hf] at hget; simp at hget
  · rw [hasCol, List.any_eq_true]
    have hpa := List.find?_some hf
    exact ⟨p, List.mem_of_find?_eq_some hf, hpa⟩

theorem setCol_self {t : Table} {n : String} {v : List Cell}
    (hnd : (names t).Nodup) (hget : getCol? t n = some v) : setCol t n v = t := by
  rw [setCol, if_pos (hasCol_of_getCol? hget)]
  induction t with
  | nil => rfl
  | cons p0 t ih =>
    simp only [names, List.map_cons, List.nodup_cons] at hnd
    by_cases h0 : p0.1 == n
    · rw [getCol?, find?_col_cons_pos h0] at hget
      simp only [Option.map_some', Option.some.injEq] at hget
      have hn0 : p0.1 = n := beq_iff_eq.mp h0
      have hnot : ∀ p ∈ t, ¬((p.1 == n) = true) := by
        intro p hp
        rw [beq_iff_eq]
        intro he
        apply hnd.1
        rw [hn0, ← he]
        exact List.mem_map.mpr ⟨p, hp, rfl⟩
      rw [List.map_cons, if_pos h0, ← hget, map_if_not_mem hnot]
    · rw [getCol?, find?_col_cons_neg h0] at hget
      rw [List.map_cons, if_neg h0]
      rw [ih hnd.2 hget]

/-! ### Descriptions of the pipeline steps -/

theorem getCol?_foldl_mapCol (ns : List String) (f : Cell → Cell) (t : Table)
    (n : String) (hnd : ns.Nodup) :
    getCol? (ns.foldl (fun a c => mapCol a c f) t) n =
      if n ∈ ns then (getCol? t n).map (List.map f) else getCol? t n := by
  induction ns generalizing t with
  | nil => simp
  | cons c ns ih =>
    have hnd' := List.nodup_cons.mp hnd
    simp only [List.foldl_cons]
    rw [ih (mapCol t c f) hnd'.2]
    by_cases hc : n = c
    · subst hc
      rw [if_neg hnd'.1, if_pos (by simp), getCol?_mapCol_same]
    · rw [getCol?_mapCol_ne t f hc]
      by_cases hmem : n ∈ ns
      · rw [if_pos hmem, if_pos (by simp [hmem])]
      · rw [if_neg hmem, if_neg (by simp [hc, hmem])]

theorem names_foldl_mapCol (ns : List String) (f : Cell → Cell) (t : Table) :
    names (ns.foldl (fun a c => mapCol a c f) t) = names t := by
  induction ns generalizing t with
  | nil => rfl
  | cons c ns ih => rw [List.foldl_cons, ih, names_mapCol]

theorem mem_clean_iff_mem_numeric (n : String) :
    n ∈ columns_to_clean ↔ n ∈ numeric_columns := by
  constructor <;> intro h <;> fin_cases h <;> decide

theorem nodup_columns_to_clean : columns_to_clean.Nodup := by decide

theorem nodup_numeric_columns : numeric_columns.Nodup := by decide

theorem getCol?_cleanStep (t : Table) (n : String) :
    getCol? (cleanStep t) n =
      if n ∈ numeric_columns then
        (getCol? t n).map (List.map clean_numeric_value)
      else getCol? t n := by
  rw [cleanStep, getCol?_foldl_mapCol _ _ _ _ nodup_columns_to_clean]
  by_cases h : n ∈ numeric_columns
  · rw [if_pos ((mem_clean_iff_mem_numeric n).mpr h), if_pos h]
  · rw [if_neg (fun hc => h ((mem_clean_iff_mem_numeric n).mp hc)), if_neg h]

theorem getCol?_fillStep (t : Table) (n : String) :
    getCol? (fillStep t) n =
      if n ∈ numeric_columns then (getCol? t n).map (List.map fillZero)
      else getCol? t n := by
  rw [fillStep, getCol?_foldl_mapCol _ _ _ _ nodup_numeric_columns]

theorem names_cleanStep (t : Table) : names (cleanStep t) = names t :=
  names_foldl_mapCol _ _ t

theorem names_fillStep (t : Table) : names (fillStep t) = names t :=
  names_foldl_mapCol _ _ t

/-- Step A then Step B on a numeric column. -/
theorem getCol?_prep (t : Table) (n : String) (hn : n ∈ numeric_columns) :
    getCol? (fillStep (cleanStep t)) n =
      (getCol? t n).map (fun col => (col.map clean_numeric_value).map fillZero) := by
  rw [getCol?_fillStep, if_pos hn, getCol?_cleanStep, if_pos hn]
  cases getCol? t n <;> rfl

theorem getCol?_prep_ne (t : Table) (n : String) (hn : n ∉ numeric_columns) :
    getCol? (fillStep (cleanStep t)) n = getCol? t n := by
  rw [getCol?_fillStep, if_neg hn, getCol?_cleanStep, if_neg hn]

/-- A prepared numeric cell is a decimal float. -/
theorem prep_cell_float (c : Cell) :
    ∃ q, fillZero (clean_numeric_value c) = Cell.float q ∧ IsDec q := by
  rcases clean_shape c with h | ⟨q, hq, hd⟩
  · exact ⟨0, by rw [h]; rfl, IsDec_zero⟩
  · refine ⟨q, ?_, hd⟩
    rw [hq, fillZero, if_neg (by simp)]

/-! ### Cast-step lemmas -/

theorem mapCells_total (g : Cell → Cell) (col : List Cell) :
    mapCells (fun c => some (g c)) col = some (col.map g) := by
  induction col with
  | nil => rfl
  | cons c col ih => rw [mapCells, ih, List.map_cons]

/-- The value-level integer cast on a (float) cell. -/
def intify (c : Cell) : Cell := Cell.int (truncQ (cellQ c))

theorem mapCells_int {col : List Cell} (h : ∀ c ∈ col, ∃ q, c = Cell.float q) :
    mapCells castIntCell col = some (col.map intify) := by
  induction col with
  | nil => rfl
  | cons c col ih =>
    obtain ⟨q, rfl⟩ := h c (by simp)
    rw [mapCells, ih fun c hc => h c (by simp [hc])]
    rfl

theorem mapCells_float {col : List Cell} (h : ∀ c ∈ col, ∃ q, c = Cell.float q) :
    mapCells castFloatCell col = some col := by
  induction col with
  | nil => rfl
  | cons c col ih =>
    obtain ⟨q, rfl⟩ := h c (by simp)
    rw [mapCells, ih fun c hc => h c (by simp [hc])]
    rfl

theorem castCol_eq {t : Table} {n : String} {f : Cell → Option Cell}
    {col v : List Cell} (hget : getCol? t n = some col)
    (hmap : mapCells f col = some v) :
    castCol t n f = some (setCol t n v) := by
  rw [castCol, hget]
  simp only [hmap, Option.map_some']

/-- The whole cast step succeeds on a table whose numeric columns hold only
floats, and the result is described column by column. -/
theorem castStep_ok (t : Table)
    (hfl : ∀ n ∈ numeric_columns, ∃ col, getCol? t n = some col ∧
        ∀ c ∈ col, ∃ q, c = Cell.float q)
    (hco : ∃ c0, getCol? t "country" = some c0)
    (hch : ∃ c0, getCol? t "channel_info" = some c0) :
    ∃ u, castStep t = some u ∧ names u = names t ∧
      (∀ n ∈ int_columns, getCol? u n = (getCol? t n).map (List.map intify)) ∧
      (∀ n ∈ float_columns, getCol? u n = getCol? t n) ∧
      getCol? u "country" = (getCol? t "country").map (List.map castStrCell) ∧
      getCol? u "channel_info" =
        (getCol? t "channel_info").map (List.map castStrCell) ∧
      (∀ n, n ∉ required_columns → getCol? u n = getCol? t n) := by
  obtain ⟨cR, hR, hRf⟩ := hfl "rank" (by decide)
  obtain ⟨cI, hI, hIf⟩ := hfl "influence_score" (by decide)
  obtain ⟨cP, hP, hPf⟩ := hfl "posts" (by decide)
  obtain ⟨cF, hF, hFf⟩ := hfl "followers" (by decide)
  obtain ⟨cA, hA, hAf⟩ := hfl "avg_likes" (by decide)
  obtain ⟨cE, hE, hEf⟩ := hfl "60_day_eng_rate" (by decide)
  obtain ⟨cN, hN, hNf⟩ := hfl "new_post_avg_like" (by decide)
  obtain ⟨cT, hT, hTf⟩ := hfl "total_likes" (by decide)
  obtain ⟨cC, hC⟩ := hco
  obtain ⟨cH, hH⟩ := hch
  set u1 := setCol t "rank" (cR.map intify) with hu1
  have g2 : getCol? u1 "influence_score" = some cI := by
    simp [hu1, getCol?_setCol_ne, hI]
  set u2 := setCol u1 "influence_score" cI with hu2
  have g3 : getCol? u2 "posts" = some cP := by
    simp [hu2, hu1, getCol?_setCol_ne, hP]
  set u3 := setCol u2 "posts" (cP.map intify) with hu3
  have g4 : getCol? u3 "followers" = some cF := by
    simp [hu3, hu2, hu1, getCol?_setCol_ne, hF]
  set u4 := setCol u3 "followers" (cF.map intify) with hu4
  have g5 : getCol? u4 "avg_likes" = some cA := by
    simp [hu4, hu3, hu2, hu1, getCol?_setCol_ne, hA]
  set u5 := setCol u4 "avg_likes" cA with hu5
  have g6 : getCol? u5 "60_day_eng_rate" = some cE := by
    simp [hu5, hu4, hu3, hu2, hu1, getCol?_setCol_ne, hE]
  set u6 := setCol u5 "60_day_eng_rate" cE with hu6
  have g7 : getCol? u6 "new_post_avg_like" = some cN := by
    simp [hu6, hu5, hu4, hu3, hu2, hu1, getCol?_setCol_ne, hN]
  set u7 := setCol u6 "new_post_avg_like" cN with hu7
  have g8 : getCol? u7 "total_likes" = some cT := by
    simp [hu7, hu6, hu5, hu4, hu3, hu2, hu1, getCol?_setCol_ne, hT]
  set u8 := setCol u7 "total_likes" (cT.map intify) with hu8
  have g9 : getCol? u8 "country" = some cC := by
    simp [hu8, hu7, hu6, hu5, hu4, hu3, hu2, hu1, getCol?_setCol_ne, hC]
  set u9 := setCol u8 "country" (cC.map castStrCell) with hu9
  have g10 : getCol? u9 "channel_info" = some cH := by
    simp [hu9, hu8, hu7, hu6, hu5, hu4, hu3, hu2, hu1, getCol?_setCol_ne, hH]
  set u10 := setCol u9 "channel_info" (cH.map castStrCell) with hu10
  have hstep : castStep t = some u10 := by
    rw [castStep]
    rw [castCol_eq hR (mapCells_int hRf), Option.bind_eq_bind', Option.some_bind', ← hu1]
    rw [castCol_eq g2 (mapCells_float hIf), Option.bind_eq_bind', Option.some_bind', ← hu2]
    rw [castCol_eq g3 (mapCells_int hPf), Option.bind_eq_bind', Option.some_bind', ← hu3]
    rw [castCol_eq g4 (mapCells_int hFf), Option.bind_eq_bind', Option.some_bind', ← hu4]
    rw [castCol_eq g5 (mapCells_float hAf), Option.bind_eq_bind', Option.some_bind', ← hu5]
    rw [castCol_eq g6 (mapCells_float hEf), Option.bind_eq_bind', Option.some_bind', ← hu6]
    rw [castCol_eq g7 (mapCells_float hNf), Option.bind_eq_bind', Option.some_bind', ← hu7]
    rw [castCol_eq g8 (mapCells_int hTf), Option.bind_eq_bind', Option.some_bind', ← hu8]
    rw [castCol_eq g9 (mapCells_total castStrCell cC), Option.bind_eq_bind', Option.some_bind', ← hu9]
    rw [castCol_eq g10 (mapCells_total castStrCell cH), ← hu10]
  refine ⟨u10, hstep, ?_, ?_, ?_, ?_, ?_, ?_⟩
  · rw [hu10, names_setCol_of_hasCol _ (hasCol_of_getCol? g10),
      hu9, names_setCol_of_hasCol _ (hasCol_of_getCol? g9),
      hu8, names_setCol_of_hasCol _ (hasCol_of_getCol? g8),
      hu7, names_setCol_of_hasCol _ (hasCol_of_getCol? g7),
      hu6, names_setCol_of_hasCol _ (hasCol_of_getCol? g6),
      hu5, names_setCol_of_hasCol _ (hasCol_of_getCol? g5),
      hu4, names_setCol_of_hasCol _ (hasCol_of_getCol? g4),
      hu3, names_setCol_of_hasCol _ (hasCol_of_getCol? g3),
      hu2, names_setCol_of_hasCol _ (hasCol_of_getCol? g2),
      hu1, names_setCol_of_hasCol _ (hasCol_of_getCol? hR)]
  · intro n hn
    fin_cases hn
    · simp [hu10, hu9, hu8, hu7, hu6, hu5, hu4, hu3, hu2, hu1,
        getCol?_setCol_ne, getCol?_setCol, hR]
    · simp [hu10, hu9, hu8, hu7, hu6, hu5, hu4, hu3, hu2, hu1,
        getCol?_setCol_ne, getCol?_setCol, hP]
    · simp [hu10, hu9, hu8, hu7, hu6, hu5, hu4, hu3, hu2, hu1,
        getCol?_setCol_ne, getCol?_setCol, hF]
    · simp [hu10, hu9, hu8, hu7, hu6, hu5, hu4, hu3, hu2, hu1,
        getCol?_setCol_ne, getCol?_setCol, hT]
  · intro n hn
    fin_cases hn
    · simp [hu10, hu9, hu8, hu7, hu6, hu5, hu4, hu3, hu2, hu1,
        getCol?_setCol_ne, getCol?_setCol, hI]
    · simp [hu10, hu9, hu8, hu7, hu6, hu5, hu4, hu3, hu2, hu1,
        getCol?_setCol_ne, getCol?_setCol, hA]
    · simp [hu10, hu9, hu8, hu7, hu6, hu5, hu4, hu3, hu2, hu1,
        getCol?_setCol_ne, getCol?_setCol, hE]
    · simp [hu10, hu9, hu8, hu7, hu6, hu5, hu4, hu3, hu2, hu1,
        getCol?_setCol_ne, getCol?_setCol, hN]
  · simp [hu10, hu9, hu8, hu7, hu6, hu5, hu4, hu3, hu2, hu1,
      getCol?_setCol_ne, getCol?_setCol, hC]
  · simp [hu10, hu9, hu8, hu7, hu6, hu5, hu4, hu3, hu2, hu1,
      getCol?_setCol_ne, getCol?_setCol, hH]
  · intro n hn
    have d1 : n ≠ "rank" := fun he => hn (by rw [he]; decide)
    have d2 : n ≠ "influence_score" := fun he => hn (by rw [he]; decide)
    have d3 : n ≠ "posts" := fun he => hn (by rw [he]; decide)
    have d4 : n ≠ "followers" := fun he => hn (by rw [he]; decide)
    have d5 : n ≠ "avg_likes" := fun he => hn (by rw [he]; decide)
    have d6 : n ≠ "60_day_eng_rate" := fun he => hn (by rw [he]; decide)
    have d7 : n ≠ "new_post_avg_like" := fun he => hn (by rw [he]; decide)
    have d8 : n ≠ "total_likes" := fun he => hn (by rw [he]; decide)
    have d9 : n ≠ "country" := fun he => hn (by rw [he]; decide)
    have d10 : n ≠ "channel_info" := fun he => hn (by rw [he]; decide)
    rw [hu10, getCol?_setCol_ne _ _ d10, hu9, getCol?_setCol_ne _ _ d9,
      hu8, getCol?_setCol_ne _ _ d8, hu7, getCol?_setCol_ne _ _ d7,
      hu6, getCol?_setCol_ne _ _ d6, hu5, getCol?_setCol_ne _ _ d5,
      hu4, getCol?_setCol_ne _ _ d4, hu3, getCol?_setCol_ne _ _ d3,
      hu2, getCol?_setCol_ne _ _ d2, hu1, getCol?_setCol_ne _ _ d1]

/-! ### The pipeline on a schema-valid table -/

/-- Step A then Step B on one cell. -/
def prepCell (c : Cell) : Cell := fillZero (clean_numeric_value c)

theorem hasCol_of_no_missing {t : Table} (hmc : missing_columns t = []) :
    ∀ n ∈ required_columns, hasCol t n = true := by
  intro n hn
  by_cases h : hasCol t n
  · exact h
  · have hmem : n ∈ missing_columns t :=
      List.mem_filter.mpr ⟨hn, by simp [h]⟩
    rw [hmc] at hmem
    simp at hmem

theorem mem_int_mem_numeric {n : String} (h : n ∈ int_columns) :
    n ∈ numeric_columns := by fin_cases h <;> decide

theorem mem_float_mem_numeric {n : String} (h : n ∈ float_columns) :
    n ∈ numeric_columns := by fin_cases h <;> decide

theorem mem_numeric_mem_required {n : String} (h : n ∈ numeric_columns) :
    n ∈ required_columns := by fin_cases h <;> decide

theorem pipeline_desc (t : Table) (hmc : missing_columns t = []) :
    ∃ u, castStep (fillStep (cleanStep t)) = some u ∧
      pipeline t = Except.ok (deriveStep u) ∧
      names u = names t ∧
      (∀ n ∈ int_columns, getCol? u n =
        (getCol? t n).map (fun col => (col.map prepCell).map intify)) ∧
      (∀ n ∈ float_columns, getCol? u n =
        (getCol? t n).map (List.map prepCell)) ∧
      getCol? u "country" = (getCol? t "country").map (List.map castStrCell) ∧
      getCol? u "channel_info" =
        (getCol? t "channel_info").map (List.map castStrCell) ∧
      (∀ n, n ∉ required_columns → getCol? u n = getCol? t n) := by
  have hmap2 : ∀ col : List Cell,
      (col.map clean_numeric_value).map fillZero = col.map prepCell := by
    intro col
    rw [List.map_map]
    rfl
  have hprep2 : ∀ n ∈ numeric_columns,
      getCol? (fillStep (cleanStep t)) n = (getCol? t n).map (List.map prepCell) := by
    intro n hn
    rw [getCol?_prep t n hn]
    cases getCol? t n with
    | none => rfl
    | some col => simp only [Option.map_some', hmap2]
  have hfl : ∀ n ∈ numeric_columns, ∃ col,
      getCol? (fillStep (cleanStep t)) n = some col ∧
      ∀ c ∈ col, ∃ q, c = Cell.float q := by
    intro n hn
    obtain ⟨col, hcol⟩ := getCol?_isSome_of_hasCol
      (hasCol_of_no_missing hmc n (mem_numeric_mem_required hn))
    refine ⟨col.map prepCell, by rw [hprep2 n hn, hcol]; rfl, ?_⟩
    intro c hc
    obtain ⟨c0, _, rfl⟩ := List.mem_map.mp hc
    obtain ⟨q, hq, _⟩ := prep_cell_float c0
    exact ⟨q, hq⟩
  have hcountry_nn : ("country" : String) ∉ numeric_columns := by decide
  have hchannel_nn : ("channel_info" : String) ∉ numeric_columns := by decide
  have hco : ∃ c0, getCol? (fillStep (cleanStep t)) "country" = some c0 := by
    rw [getCol?_prep_ne t _ hcountry_nn]
    exact getCol?_isSome_of_hasCol (hasCol_of_no_missing hmc _ (by decide))
  have hch : ∃ c0, getCol? (fillStep (cleanStep t)) "channel_info" = some c0 := by
    rw [getCol?_prep_ne t _ hchannel_nn]
    exact getCol?_isSome_of_hasCol (hasCol_of_no_missing hmc _ (by decide))
  obtain ⟨u, hstep, hnames, hint, hflo, hcou, hcha, hext⟩ :=
    castStep_ok (fillStep (cleanStep t)) hfl hco hch
  refine ⟨u, hstep, ?_, ?_, ?_, ?_, ?_, ?_, ?_⟩
  · rw [pipeline, if_neg (by simp [hmc]), hstep]
  · rw [hnames, names_fillStep, names_cleanStep]
  · intro n hn
    rw [hint n hn, hprep2 n (mem_int_mem_numeric hn)]
    cases getCol? t n <;> rfl
  · intro n hn
    rw [hflo n hn, hprep2 n (mem_float_mem_numeric hn)]
  · rw [hcou, getCol?_prep_ne t _ hcountry_nn]
  · rw [hcha, getCol?_prep_ne t _ hchannel_nn]
  · intro n hn
    rw [hext n hn, getCol?_prep_ne t n fun hh => hn (mem_numeric_mem_required hh)]

/-! ### Derived-metric step -/

theorem colD_setCol_ne (t : Table) {n n' : String} (v : List Cell) (h : n' ≠ n) :
    colD (setCol t n v) n' = colD t n' := by
  rw [colD, getCol?_setCol_ne t v h, colD]

theorem deriveStep_desc (u : Table) :
    getCol? (deriveStep u) "Engagement Rate (Calculated)" =
      some (List.zipWith engagementRateCell (colD u "avg_likes") (colD u "followers")) ∧
    getCol? (deriveStep u) "Growth Rate in New Post Likes" =
      some (List.zipWith growthRateCell (colD u "new_post_avg_like") (colD u "avg_likes")) ∧
    getCol? (deriveStep u) "Like-to-Follower Ratio" =
      some (List.zipWith likeFollowerCell (colD u "total_likes") (colD u "followers")) ∧
    getCol? (deriveStep u) "Post Efficiency" =
      some (List.zipWith postEfficiencyCell (colD u "total_likes") (colD u "posts")) ∧
    ∀ n, n ∉ derived_columns → getCol? (deriveStep u) n = getCol? u n := by
  simp only [deriveStep]
  refine ⟨?_, ?_, ?_, ?_, ?_⟩
  · rw [getCol?_setCol_ne _ _ (by decide), getCol?_setCol_ne _ _ (by decide),
      getCol?_setCol_ne _ _ (by decide), getCol?_setCol]
  · rw [getCol?_setCol_ne _ _ (by decide), getCol?_setCol_ne _ _ (by decide),
      getCol?_setCol, colD_setCol_ne _ _ (by decide), colD_setCol_ne _ _ (by decide)]
  · rw [getCol?_setCol_ne _ _ (by decide), getCol?_setCol,
      colD_setCol_ne _ _ (by decide), colD_setCol_ne _ _ (by decide),
      colD_setCol_ne _ _ (by decide), colD_setCol_ne _ _ (by decide)]
  · rw [getCol?_setCol, colD_setCol_ne _ _ (by decide),
      colD_setCol_ne _ _ (by decide), colD_setCol_ne _ _ (by decide),
      colD_setCol_ne _ _ (by decide), colD_setCol_ne _ _ (by decide),
      colD_setCol_ne _ _ (by decide)]
  · intro n hn
    have d1 : n ≠ "Engagement Rate (Calculated)" := fun he => hn (by rw [he]; decide)
    have d2 : n ≠ "Growth Rate in New Post Likes" := fun he => hn (by rw [he]; decide)
    have d3 : n ≠ "Like-to-Follower Ratio" := fun he => hn (by rw [he]; decide)
    have d4 : n ≠ "Post Efficiency" := fun he => hn (by rw [he]; decide)
    rw [getCol?_setCol_ne _ _ d4, getCol?_setCol_ne _ _ d3,
      getCol?_setCol_ne _ _ d2, getCol?_setCol_ne _ _ d1]

theorem names_setCol (t : Table) (n : String) (v : List Cell) :
    names (setCol t n v) =
      if hasCol t n then names t else names t ++ [n] := by
  by_cases h : hasCol t n
  · rw [if_pos h, names_setCol_of_hasCol v h]
  · rw [if_neg h, setCol, if_neg h, names, List.map_append]
    rfl

theorem mem_names_setCol (t : Table) (n n' : String) (v : List Cell) :
    n' ∈ names (setCol t n v) ↔ n' ∈ names t ∨ n' = n := by
  rw [names_setCol]
  by_cases h : hasCol t n
  · rw [if_pos h]
    constructor
    · exact Or.inl
    · rintro (hm | rfl)
      · exact hm
      · exact (hasCol_iff_mem_names t n').mp h
  · rw [if_neg h]
    simp

theorem nodup_names_setCol {t : Table} {n : String} (v : List Cell)
    (hnd : (names t).Nodup) : (names (setCol t n v)).Nodup := by
  rw [names_setCol]
  by_cases h : hasCol t n
  · rw [if_pos h]
    exact hnd
  · rw [if_neg h]
    have hn : n ∉ names t := fun hm => h ((hasCol_iff_mem_names t n).mpr hm)
    simp [List.nodup_append, hnd, hn]

theorem mem_names_deriveStep (u : Table) (n : String) :
    n ∈ names (deriveStep u) ↔ n ∈ names u ∨ n ∈ derived_columns := by
  simp only [deriveStep, mem_names_setCol, derived_columns]
  simp only [List.mem_cons, List.not_mem_nil]
  tauto

theorem nodup_names_deriveStep {u : Table} (hnd : (names u).Nodup) :
    (names (deriveStep u)).Nodup := by
  simp only [deriveStep]
  exact nodup_names_setCol _ (nodup_names_setCol _ (nodup_names_setCol _
    (nodup_names_setCol _ hnd)))

/-! ### Table extensionality -/

theorem getCol?_eq_none {t : Table} {n : String} (h : n ∉ names t) :
    getCol? t n = none := by
  rcases hf : t.find? (fun p => p.1 == n) with _ | p
  · rw [getCol?, hf]
    rfl
  · exfalso
    apply h
    have hpa := List.find?_some hf
    have hpm := List.mem_of_find?_eq_some hf
    rw [names, List.mem_map]
    exact ⟨p, hpm, beq_iff_eq.mp hpa⟩

theorem table_ext {t u : Table} (hnames : names t = names u)
    (hnd : (names t).Nodup) (h : ∀ n, getCol? t n = getCol? u n) : t = u := by
  induction t generalizing u with
  | nil =>
    cases u with
    | nil => rfl
    | cons q u => simp [names] at hnames
  | cons p t ih =>
    cases u with
    | nil => simp [names] at hnames
    | cons q u =>
      simp only [names, List.map_cons, List.cons.injEq] at hnames
      simp only [names, List.map_cons, List.nodup_cons] at hnd
      have hv : p.2 = q.2 := by
        have hp := h p.1
        rw [getCol?, find?_col_cons_pos (by simp), getCol?,
          find?_col_cons_pos (by rw [beq_iff_eq]; exact hnames.1.symm)] at hp
        simpa using hp
      have ht : t = u := by
        apply ih hnames.2 hnd.2
        intro n
        by_cases hn : n = p.1
        · subst hn
          rw [getCol?_eq_none (show p.1 ∉ names t by simp only [names]; exact hnd.1),
            getCol?_eq_none (show p.1 ∉ names u by
              simp only [names]; rw [← hnames.2]; exact hnd.1)]
        · have hp := h n
          rw [getCol?, find?_col_cons_neg (by rw [beq_iff_eq]; exact fun he => hn he.symm),
            getCol?, find?_col_cons_neg
              (by rw [beq_iff_eq, ← hnames.1]; exact fun he => hn he.symm)] at hp
          exact hp
      exact List.cons_eq_cons.mpr ⟨Prod.ext hnames.1 hv, ht⟩

theorem zipWith_getElem? (f : Cell → Cell → Cell) (a b : List Cell) (i : ℕ)
    (x y : Cell) (ha : a[i]? = some x) (hb : b[i]? = some y) :
    (List.zipWith f a b)[i]? = some (f x y) := by
  induction a generalizing b i with
  | nil => simp at ha
  | cons a0 a iha =>
    cases b with
    | nil => simp at hb
    | cons b0 b =>
      cases i with
      | zero =>
        simp only [List.getElem?_cons_zero, Option.some.injEq] at ha hb
        rw [List.zipWith_cons_cons, List.getElem?_cons_zero, ha, hb]
      | succ i =>
        simp only [List.getElem?_cons_succ] at ha hb
        rw [List.zipWith_cons_cons, List.getElem?_cons_succ]
        exact iha b i ha hb

/-! ### First-appearance deduplication -/

theorem mem_pdUniqueAux (l : List String) :
    ∀ (seen : List String) (x : String),
      x ∈ pdUniqueAux seen l ↔ x ∈ l ∧ x ∉ seen := by
  induction l with
  | nil => intro seen x; simp [pdUniqueAux]
  | cons a l ih =>
    intro seen x
    rw [pdUniqueAux]
    by_cases ha : a ∈ seen
    · rw [if_pos ha, ih]
      constructor
      · rintro ⟨hx, hs⟩
        exact ⟨List.mem_cons_of_mem a hx, hs⟩
      · rintro ⟨hx, hs⟩
        rcases List.mem_cons.mp hx with rfl | hx'
        · exact absurd ha hs
        · exact ⟨hx', hs⟩
    · rw [if_neg ha]
      simp only [List.mem_cons, ih]
      constructor
      · rintro (rfl | ⟨hl, hs⟩)
        · exact ⟨Or.inl rfl, ha⟩
        · push_neg at hs
          exact ⟨Or.inr hl, hs.2⟩
      · rintro ⟨rfl | hl, hs⟩
        · exact Or.inl rfl
        · by_cases hxa : x = a
          · exact Or.inl hxa
          · refine Or.inr ⟨hl, ?_⟩
            push_neg
            exact ⟨hxa, hs⟩

theorem nodup_pdUniqueAux (l : List String) :
    ∀ seen : List String, (pdUniqueAux seen l).Nodup := by
  induction l with
  | nil => intro seen; exact List.nodup_nil
  | cons a l ih =>
    intro seen
    rw [pdUniqueAux]
    by_cases ha : a ∈ seen
    · rw [if_pos ha]
      exact ih seen
    · rw [if_neg ha]
      refine List.nodup_cons.mpr ⟨?_, ih (a :: seen)⟩
      intro hmem
      exact ((mem_pdUniqueAux l (a :: seen) a).mp hmem).2 (by simp)

theorem sublist_pdUniqueAux (l : List String) :
    ∀ seen : List String, List.Sublist (pdUniqueAux seen l) l := by
  induction l with
  | nil => intro seen; simp [pdUniqueAux]
  | cons a l ih =>
    intro seen
    rw [pdUniqueAux]
    by_cases ha : a ∈ seen
    · rw [if_pos ha]
      exact (ih seen).trans (List.sublist_cons_self a l)
    · rw [if_neg ha]
      exact (ih (a :: seen)).cons₂ a

/-! ### Inverting a successful pipeline run -/

theorem pipeline_ok_inv {t out : Table} (h : pipeline t = Except.ok out) :
    missing_columns t = [] ∧
      ∃ u, castStep (fillStep (cleanStep t)) = some u ∧ out = deriveStep u := by
  by_cases hmc : missing_columns t = []
  · obtain ⟨u, hstep, hpl, _⟩ := pipeline_desc t hmc
    refine ⟨hmc, u, hstep, ?_⟩
    rw [hpl] at h
    exact (Except.ok.inj h).symm
  · rw [pipeline, if_pos hmc] at h
    cases h

/-! ### A concrete schema-valid example table (two rows; one garbage cell) -/

/-- A small parsed input table with all ten required columns, two rows, an
extra column, a `k`-suffixed value, a percent value and one garbage cell. -/
def exTable : Table :=
  [("rank", [Cell.str "1", Cell.str "2"]),
   ("influence_score", [Cell.str "9", Cell.str "8"]),
   ("posts", [Cell.str "10", Cell.str "abc"]),
   ("followers", [Cell.str "3.3k", Cell.str "200"]),
   ("avg_likes", [Cell.str "150", Cell.str "6"]),
   ("60_day_eng_rate", [Cell.str "4%", Cell.str "2%"]),
   ("new_post_avg_like", [Cell.str "200", Cell.str "8"]),
   ("total_likes", [Cell.str "500", Cell.str "60"]),
   ("country", [Cell.str "usa", Cell.str "brazil"]),
   ("channel_info", [Cell.str "x", Cell.str "y"]),
   ("extra_notes", [Cell.str "keep", Cell.null])]

/-! ### Claim C1 -/

theorem cleanPrep_eq_filter (l : List Char) :
    cleanPrep l = (pyLower (pyStrip l)).filter (fun c => !(c == ',' || c == '%')) := by
  rw [cleanPrep, removeAll, removeAll, List.filter_filter]
  congr 1
  funext c
  simp only [bne, Bool.not_or]
  cases c == ',' <;> cases c == '%' <;> rfl

/-- Claim C1, amended: `clean_numeric_value` follows the spec's ordered rules
(missing stays missing; stringify, strip, lowercase; `k` checked before `m`,
else direct parse; parse failure gives a missing value), with the one
amendment that commas and percent signs are stripped wherever they occur in
the text, not only thousands separators and a trailing percent sign. -/
theorem clean_numeric_value_spec (v : Cell) :
    clean_numeric_value v = specNormalizeAmendedCell v := by
  have hch : ∀ l, cleanChars l = specNormalizeAmendedChars l := by
    intro l
    rw [cleanChars, specNormalizeAmendedChars, cleanPrep_eq_filter]
  cases v with
  | null => rfl
  | str s => simp only [clean_numeric_value, specNormalizeAmendedCell, hch]
  | int n => simp only [clean_numeric_value, specNormalizeAmendedCell, hch]
  | float q => simp only [clean_numeric_value, specNormalizeAmendedCell, hch]

/-- Claim C1 as stated is false: the claim strips only a TRAILING percent
sign, but the code strips every percent sign.  On the cell `"%5"` the code
yields `5.0` while the claim's rules yield a missing value. -/
theorem clean_trailing_percent_cex :
    clean_numeric_value (Cell.str "%5") = Cell.float 5 ∧
      specNormalizeCell (Cell.str "%5") = Cell.null := by
  constructor <;> rfl

/-! ### Claim C9 -/

/-- Claim C9, amended: the option collection handed to the country filter is
exactly the distinct values of the `country` column — duplicate-free, with
the same membership, and a subsequence of the column (first-appearance
order) — but it is not sorted. -/
theorem countryOptions_spec (t : Table) :
    (countryOptions t).Nodup ∧
      (∀ s, s ∈ countryOptions t ↔ s ∈ countryStrings t) ∧
      List.Sublist (countryOptions t) (countryStrings t) := by
  refine ⟨nodup_pdUniqueAux _ _, fun s => ?_, sublist_pdUniqueAux _ _⟩
  rw [countryOptions, pdUnique, mem_pdUniqueAux]
  simp

set_option maxRecDepth 8000 in
/-- Claim C9 as stated is false: the options are produced by
`df['country'].unique()`, which preserves first-appearance order; on a
cleaned table whose countries appear as `usa` then `brazil` the options are
`["usa", "brazil"]`, which is not sorted. -/
theorem country_options_unsorted_cex :
    (pipeline exTable).toOption.map countryOptions = some ["usa", "brazil"] ∧
      ¬ List.Sorted (fun a b : String => a ≤ b) ["usa", "brazil"] := by
  constructor
  · rfl
  · intro hs
    have hrel := List.rel_of_sorted_cons hs "brazil" (by simp)
    have hrel' := String.le_iff_toList_le.mp hrel
    exact absurd hrel' (by decide)

/-! ### Claim C8 -/

theorem maskCol_all_false {keep : List Bool} (h : ∀ b ∈ keep, b = false) :
    ∀ col, maskCol keep col = [] := by
  induction keep with
  | nil => intro col; cases col <;> rfl
  | cons b keep ih =>
    intro col
    cases col with
    | nil => rfl
    | cons c col =>
      have hb : b = false := h b (by simp)
      subst hb
      have hstep : maskCol (false :: keep) (c :: col) = maskCol keep col := rfl
      rw [hstep]
      exact ih (fun x hx => h x (by simp [hx])) col

/-- Claim C8: a country selection whose membership predicate matches no row
of the table (the empty selection included) makes the render pass report the
empty-result warning and halt — it renders nothing from the empty table. -/
theorem renderPass_empty_warning (t : Table) (sel : List String)
    (h : ∀ s ∈ countryStrings t, s ∉ sel) :
    renderPass t sel = RenderOutcome.emptyWarning := by
  have hkeep : ∀ b ∈ (countryStrings t).map (fun s => sel.contains s), b = false := by
    intro b hb
    obtain ⟨s, hs, rfl⟩ := List.mem_map.mp hb
    rw [← Bool.not_eq_true]
    intro hc
    exact h s hs (List.mem_of_elem_eq_true hc)
  have hempty : nrows (filterByCountry t sel) = 0 := by
    simp only [filterByCountry]
    cases t with
    | nil => rfl
    | cons p t' =>
      simp only [List.map_cons, nrows]
      rw [maskCol_all_false hkeep p.2]
      rfl
  rw [renderPass, if_pos hempty]

/-- Witness for C8: the empty selection on a one-row table. -/
theorem renderPass_empty_warning_witness :
    renderPass [("country", [Cell.str "usa"])] [] = RenderOutcome.emptyWarning :=
  renderPass_empty_warning _ _ (by decide)

/-! ### Claim C3 -/

/-- Claim C3: when required columns are absent, the run reports a
missing-columns error naming exactly the required columns that the table
lacks, and produces no output table; when all ten are present the schema
check passes and the run reaches a cleaned output. -/
theorem missing_columns_check (t : Table) :
    (missing_columns t ≠ [] →
      pipeline t = Except.error (RunError.missingColumns (missing_columns t)) ∧
      ∀ n, n ∈ missing_columns t ↔ n ∈ required_columns ∧ hasCol t n = false) ∧
    (missing_columns t = [] → ∃ out, pipeline t = Except.ok out) := by
  constructor
  · intro h
    refine ⟨by rw [pipeline, if_pos h], fun n => ?_⟩
    rw [missing_columns, List.mem_filter]
    simp
  · intro h
    obtain ⟨u, hstep, hpl, _⟩ := pipeline_desc t h
    exact ⟨deriveStep u, hpl⟩

/-- Witness for C3: the empty table misses every required column. -/
theorem missing_columns_check_witness :
    pipeline [] = Except.error (RunError.missingColumns (missing_columns [])) :=
  ((missing_columns_check []).1 (by decide)).1

/-! ### Claim C6 -/

theorem mem_numeric_not_derived {n : String} (h : n ∈ numeric_columns) :
    n ∉ derived_columns := by fin_cases h <;> decide

theorem mem_numeric_int_or_float {n : String} (h : n ∈ numeric_columns) :
    n ∈ int_columns ∨ n ∈ float_columns := by fin_cases h <;> decide

/-- Claim C6: a cell whose value fails numeric normalization yields a
missing value, which null-filling replaces with `0`; the run never aborts on
it — the pipeline still succeeds and the cell ends as a zero of the column's
canonical type. -/
theorem garbage_cell_absorbed (t : Table) (hmc : missing_columns t = [])
    (n : String) (hn : n ∈ numeric_columns) (i : ℕ) (c : Cell)
    (hc : (colD t n)[i]? = some c) (hfail : clean_numeric_value c = Cell.null) :
    ∃ out, pipeline t = Except.ok out ∧
      ((colD out n)[i]? = some (Cell.int 0) ∨
        (colD out n)[i]? = some (Cell.float 0)) := by
  obtain ⟨u, hstep, hpl, hnames, hint, hflo, hcou, hcha, hext⟩ := pipeline_desc t hmc
  refine ⟨deriveStep u, hpl, ?_⟩
  obtain ⟨col, hg, hci⟩ : ∃ col, getCol? t n = some col ∧ col[i]? = some c := by
    rcases hg : getCol? t n with _ | col
    · rw [colD, hg] at hc
      simp at hc
    · rw [colD, hg] at hc
      exact ⟨col, rfl, hc⟩
  have hderc : getCol? (deriveStep u) n = getCol? u n :=
    (deriveStep_desc u).2.2.2.2 n (mem_numeric_not_derived hn)
  have hprepc : prepCell c = Cell.float 0 := by
    rw [prepCell, hfail]
    rfl
  rcases mem_numeric_int_or_float hn with hni | hnf
  · left
    rw [colD, hderc, hint n hni, hg]
    simp only [Option.map_some', Option.getD_some]
    rw [List.getElem?_map, List.getElem?_map, hci]
    simp only [Option.map_some', hprepc]
    have hzero : intify (Cell.float 0) = Cell.int 0 := by decide
    rw [hzero]
  · right
    rw [colD, hderc, hflo n hnf, hg]
    simp only [Option.map_some', Option.getD_some]
    rw [List.getElem?_map, hci]
    simp only [Option.map_some', hprepc]

set_option maxRecDepth 40000 in
/-- Witness for C6: the garbage cell `"abc"` in the `posts` column of the
example table comes out as the integer `0`. -/
theorem garbage_cell_absorbed_witness :
    ∃ out, pipeline exTable = Except.ok out ∧
      ((colD out "posts")[1]? = some (Cell.int 0) ∨
        (colD out "posts")[1]? = some (Cell.float 0)) :=
  garbage_cell_absorbed exTable (by decide) "posts" (by decide) 1 (Cell.str "abc")
    (by rfl) (by rfl)

/-! ### Combined invariants of a successful run -/

theorem colD_congr {a b : Table} {n : String} (h : getCol? a n = getCol? b n) :
    colD a n = colD b n := by
  rw [colD, h, colD]

theorem pipeline_ok_desc {t out : Table} (h : pipeline t = Except.ok out) :
    missing_columns t = [] ∧
    ∃ u, out = deriveStep u ∧
      names u = names t ∧
      (∀ n ∈ int_columns, getCol? u n =
        (getCol? t n).map (fun col => (col.map prepCell).map intify)) ∧
      (∀ n ∈ float_columns, getCol? u n =
        (getCol? t n).map (List.map prepCell)) ∧
      getCol? u "country" = (getCol? t "country").map (List.map castStrCell) ∧
      getCol? u "channel_info" =
        (getCol? t "channel_info").map (List.map castStrCell) ∧
      (∀ n, n ∉ required_columns → getCol? u n = getCol? t n) := by
  obtain ⟨hmc, u, hstep, hout⟩ := pipeline_ok_inv h
  obtain ⟨u', hstep', hpl', hrest⟩ := pipeline_desc t hmc
  have huu : u' = u := Option.some.inj (hstep'.symm.trans hstep)
  subst huu
  exact ⟨hmc, u', hout, hrest⟩

/-- Cells of the integer columns of any successful run's output. -/
theorem pipeline_out_int_cells {t out : Table} (h : pipeline t = Except.ok out) :
    ∀ n ∈ int_columns, ∀ c ∈ colD out n, ∃ z : ℤ, c = Cell.int z := by
  obtain ⟨hmc, u, rfl, hnames, hint, hflo, hcou, hcha, hext⟩ := pipeline_ok_desc h
  intro n hn c hc
  rw [colD, (deriveStep_desc u).2.2.2.2 n
    (mem_numeric_not_derived (mem_int_mem_numeric hn)), hint n hn] at hc
  rcases hg : getCol? t n with _ | col
  · rw [hg] at hc
    simp at hc
  · rw [hg] at hc
    simp only [Option.map_some', Option.getD_some] at hc
    obtain ⟨c0, _, rfl⟩ := List.mem_map.mp hc
    exact ⟨truncQ (cellQ c0), rfl⟩

/-- Cells of the float columns of any successful run's output are decimal
floats. -/
theorem pipeline_out_float_cells {t out : Table} (h : pipeline t = Except.ok out) :
    ∀ n ∈ float_columns, ∀ c ∈ colD out n, ∃ q : ℚ, c = Cell.float q ∧ IsDec q := by
  obtain ⟨hmc, u, rfl, hnames, hint, hflo, hcou, hcha, hext⟩ := pipeline_ok_desc h
  intro n hn c hc
  rw [colD, (deriveStep_desc u).2.2.2.2 n
    (mem_numeric_not_derived (mem_float_mem_numeric hn)), hflo n hn] at hc
  rcases hg : getCol? t n with _ | col
  · rw [hg] at hc
    simp at hc
  · rw [hg] at hc
    simp only [Option.map_some', Option.getD_some] at hc
    obtain ⟨c0, _, rfl⟩ := List.mem_map.mp hc
    exact prep_cell_float c0

/-- Cells of the text columns of any successful run's output. -/
theorem pipeline_out_str_cells {t out : Table} (h : pipeline t = Except.ok out) :
    ∀ n, n = "country" ∨ n = "channel_info" →
      ∀ c ∈ colD out n, ∃ s, c = Cell.str s := by
  obtain ⟨hmc, u, rfl, hnames, hint, hflo, hcou, hcha, hext⟩ := pipeline_ok_desc h
  intro n hn c hc
  have hnd : n ∉ derived_columns := by
    rcases hn with rfl | rfl <;> decide
  rw [colD, (deriveStep_desc u).2.2.2.2 n hnd] at hc
  have hco : getCol? u n = (getCol? t n).map (List.map castStrCell) := by
    rcases hn with rfl | rfl
    · exact hcou
    · exact hcha
  rw [hco] at hc
  rcases hg : getCol? t n with _ | col
  · rw [hg] at hc
    simp at hc
  · rw [hg] at hc
    simp only [Option.map_some', Option.getD_some] at hc
    obtain ⟨c0, _, rfl⟩ := List.mem_map.mp hc
    exact ⟨pyStrOf c0, rfl⟩

/-! ### Claim C2 -/

/-- Claim C2: for every row of a successful run's output, the four derived
metrics satisfy the spec formulas with their zero-guards: engagement rate is
`avg_likes / followers * 100` guarded on `followers = 0`, growth rate is
`(new_post_avg_like - avg_likes) / avg_likes * 100` guarded on
`avg_likes = 0`, like-to-follower is `total_likes / followers` guarded on
`followers = 0`, and post efficiency is `total_likes / posts` guarded on
`posts = 0`; the guarded fallbacks are `0`, so no division by zero is ever
evaluated and the step cannot fail. -/
theorem derived_metrics_formulas (t out : Table) (h : pipeline t = Except.ok out) :
    ∀ (i : ℕ) (al fo npl tl po : Cell),
      (colD out "avg_likes")[i]? = some al →
      (colD out "followers")[i]? = some fo →
      (colD out "new_post_avg_like")[i]? = some npl →
      (colD out "total_likes")[i]? = some tl →
      (colD out "posts")[i]? = some po →
      (colD out "Engagement Rate (Calculated)")[i]? =
        some (if cellQ fo ≠ 0 then Cell.float (cellQ al / cellQ fo * 100)
          else Cell.float 0) ∧
      (colD out "Growth Rate in New Post Likes")[i]? =
        some (if cellQ al ≠ 0 then
          Cell.float ((cellQ npl - cellQ al) / cellQ al * 100) else Cell.float 0) ∧
      (colD out "Like-to-Follower Ratio")[i]? =
        some (if cellQ fo ≠ 0 then Cell.float (cellQ tl / cellQ fo)
          else Cell.float 0) ∧
      (colD out "Post Efficiency")[i]? =
        some (if cellQ po ≠ 0 then Cell.float (cellQ tl / cellQ po)
          else Cell.float 0) := by
  obtain ⟨hmc, u, rfl, hrest⟩ := pipeline_ok_desc h
  obtain ⟨hE, hG, hL, hP, hbase⟩ := deriveStep_desc u
  intro i al fo npl tl po hal hfo hnpl htl hpo
  have hbA : colD (deriveStep u) "avg_likes" = colD u "avg_likes" :=
    colD_congr (hbase _ (by decide))
  have hbF : colD (deriveStep u) "followers" = colD u "followers" :=
    colD_congr (hbase _ (by decide))
  have hbN : colD (deriveStep u) "new_post_avg_like" = colD u "new_post_avg_like" :=
    colD_congr (hbase _ (by decide))
  have hbT : colD (deriveStep u) "total_likes" = colD u "total_likes" :=
    colD_congr (hbase _ (by decide))
  have hbP : colD (deriveStep u) "posts" = colD u "posts" :=
    colD_congr (hbase _ (by decide))
  rw [hbA] at hal
  rw [hbF] at hfo
  rw [hbN] at hnpl
  rw [hbT] at htl
  rw [hbP] at hpo
  refine ⟨?_, ?_, ?_, ?_⟩
  · rw [colD, hE, Option.getD_some,
      zipWith_getElem? engagementRateCell _ _ i al fo hal hfo]
    rfl
  · rw [colD, hG, Option.getD_some,
      zipWith_getElem? growthRateCell _ _ i npl al hnpl hal]
    rfl
  · rw [colD, hL, Option.getD_some,
      zipWith_getElem? likeFollowerCell _ _ i tl fo htl hfo]
    rfl
  · rw [colD, hP, Option.getD_some,
      zipWith_getElem? postEfficiencyCell _ _ i tl po htl hpo]
    rfl

set_option maxRecDepth 40000 in
/-- Witness for C2: the first row of the example table has engagement rate
`150 / 3300 * 100 = 50 / 11`. -/
theorem derived_metrics_formulas_witness :
    (colD ((pipeline exTable).toOption.getD [])
      "Engagement Rate (Calculated)")[0]? = some (Cell.float (50 / 11)) := by
  have h := (derived_metrics_formulas exTable ((pipeline exTable).toOption.getD [])
    (by rfl) 0 (Cell.float 150) (Cell.int 3300) (Cell.float 200) (Cell.int 500)
    (Cell.int 10) (by with_unfolding_all rfl) (by with_unfolding_all rfl)
    (by with_unfolding_all rfl) (by with_unfolding_all rfl)
    (by with_unfolding_all rfl)).1
  rw [h]
  norm_num [cellQ]

/-! ### Claim C10 -/

/-- Claim C10: every column beyond the ten required ones passes through the
pipeline with its values unchanged, and the only columns the pipeline adds
are the four derived ones. -/
theorem extra_columns_untouched (t out : Table) (h : pipeline t = Except.ok out) :
    (∀ n, n ∉ required_columns → n ∉ derived_columns →
      getCol? out n = getCol? t n) ∧
    (∀ n, n ∈ names out ↔ n ∈ names t ∨ n ∈ derived_columns) := by
  obtain ⟨hmc, u, rfl, hnames, hint, hflo, hcou, hcha, hext⟩ := pipeline_ok_desc h
  constructor
  · intro n hr hd
    rw [(deriveStep_desc u).2.2.2.2 n hd, hext n hr]
  · intro n
    rw [mem_names_deriveStep, hnames]

set_option maxRecDepth 40000 in
/-- Witness for C10: the `extra_notes` column of the example table survives
the pipeline untouched. -/
theorem extra_columns_untouched_witness :
    getCol? ((pipeline exTable).toOption.getD []) "extra_notes" =
      getCol? exTable "extra_notes" :=
  (extra_columns_untouched exTable _ (by rfl)).1 "extra_notes" (by decide) (by decide)

/-! ### Claim C4 -/

theorem mem_required_classify {n : String} (h : n ∈ required_columns) :
    n ∈ int_columns ∨ n ∈ float_columns ∨ n = "country" ∨ n = "channel_info" := by
  fin_cases h <;> decide

/-- Claim C4: after a successful run, each of the four integer columns holds
only integer values and each of the four float columns holds only float
values (never a missing cell), and no row is dropped: the output's row count
equals the input's, column by column. -/
theorem pipeline_types_and_rowcount (t out : Table)
    (hnd : (names t).Nodup) (hwf : ∀ p ∈ t, p.2.length = nrows t)
    (h : pipeline t = Except.ok out) :
    (∀ n ∈ int_columns, ∀ c ∈ colD out n, ∃ z : ℤ, c = Cell.int z) ∧
    (∀ n ∈ float_columns, ∀ c ∈ colD out n, ∃ q : ℚ, c = Cell.float q) ∧
    nrows out = nrows t ∧
    (∀ p ∈ out, p.2.length = nrows t) := by
  have hty_int := pipeline_out_int_cells h
  have hty_float : ∀ n ∈ float_columns, ∀ c ∈ colD out n,
      ∃ q : ℚ, c = Cell.float q := by
    intro n hn c hc
    obtain ⟨q, hq, _⟩ := pipeline_out_float_cells h n hn c hc
    exact ⟨q, hq⟩
  obtain ⟨hmc, u, rfl, hnames, hint, hflo, hcou, hcha, hext⟩ := pipeline_ok_desc h
  obtain ⟨hE, hG, hL, hP, hbase⟩ := deriveStep_desc u
  have hlen_t : ∀ {n col}, getCol? t n = some col → col.length = nrows t := by
    intro n col hg
    exact hwf (n, col) ((mem_iff_getCol? hnd (n, col)).mpr hg)
  have hlen_u : ∀ n ∈ numeric_columns, (colD u n).length = nrows t := by
    intro n hn
    obtain ⟨col, hg⟩ := getCol?_isSome_of_hasCol
      (hasCol_of_no_missing hmc n (mem_numeric_mem_required hn))
    rcases mem_numeric_int_or_float hn with hi | hf
    · rw [colD, hint n hi, hg]
      simp [hlen_t hg]
    · rw [colD, hflo n hf, hg]
      simp [hlen_t hg]
  have hlen : ∀ p ∈ deriveStep u, p.2.length = nrows t := by
    have hndu : (names (deriveStep u)).Nodup :=
      nodup_names_deriveStep (by rw [hnames]; exact hnd)
    intro p hp
    obtain ⟨pn, pv⟩ := p
    have hget := (mem_iff_getCol? hndu (pn, pv)).mp hp
    simp only [] at hget
    by_cases hd : pn ∈ derived_columns
    · have hlenA := hlen_u "avg_likes" (by decide)
      have hlenF := hlen_u "followers" (by decide)
      have hlenN := hlen_u "new_post_avg_like" (by decide)
      have hlenT := hlen_u "total_likes" (by decide)
      have hlenP := hlen_u "posts" (by decide)
      fin_cases hd
      · rw [hE] at hget
        have := Option.some.inj hget
        rw [← this, List.length_zipWith, hlenA, hlenF, Nat.min_self]
      · rw [hG] at hget
        have := Option.some.inj hget
        rw [← this, List.length_zipWith, hlenN, hlenA, Nat.min_self]
      · rw [hL] at hget
        have := Option.some.inj hget
        rw [← this, List.length_zipWith, hlenT, hlenF, Nat.min_self]
      · rw [hP] at hget
        have := Option.some.inj hget
        rw [← this, List.length_zipWith, hlenT, hlenP, Nat.min_self]
    · rw [hbase pn hd] at hget
      by_cases hr : pn ∈ required_columns
      · rcases mem_required_classify hr with hi | hf | hc | hh
        · rw [hint _ hi] at hget
          rcases hg : getCol? t pn with _ | col
          · rw [hg] at hget
            simp at hget
          · rw [hg] at hget
            simp only [Option.map_some', Option.some.injEq] at hget
            rw [← hget]
            simp [hlen_t hg]
        · rw [hflo _ hf] at hget
          rcases hg : getCol? t pn with _ | col
          · rw [hg] at hget
            simp at hget
          · rw [hg] at hget
            simp only [Option.map_some', Option.some.injEq] at hget
            rw [← hget]
            simp [hlen_t hg]
        · rw [hc] at hget ⊢
          rw [hcou] at hget
          rcases hg : getCol? t "country" with _ | col
          · rw [hg] at hget
            simp at hget
          · rw [hg] at hget
            simp only [Option.map_some', Option.some.injEq] at hget
            rw [← hget]
            simp [hlen_t hg]
        · rw [hh] at hget ⊢
          rw [hcha] at hget
          rcases hg : getCol? t "channel_info" with _ | col
          · rw [hg] at hget
            simp at hget
          · rw [hg] at hget
            simp only [Option.map_some', Option.some.injEq] at hget
            rw [← hget]
            simp [hlen_t hg]
      · rw [hext _ hr] at hget
        exact hlen_t hget
  refine ⟨hty_int, hty_float, ?_, hlen⟩
  rcases hu : deriveStep u with _ | ⟨p0, rest⟩
  · exfalso
    have hrank : "rank" ∈ names (deriveStep u) := by
      rw [mem_names_deriveStep, hnames]
      exact Or.inl ((hasCol_iff_mem_names t "rank").mp
        (hasCol_of_no_missing hmc _ (by decide)))
    rw [hu] at hrank
    simp [names] at hrank
  · have hp0 : p0 ∈ deriveStep u := by
      rw [hu]
      simp
    have hl0 := hlen p0 hp0
    exact hl0

set_option maxRecDepth 40000 in
/-- Witness for C4: the example table keeps its two rows. -/
theorem pipeline_types_and_rowcount_witness :
    nrows ((pipeline exTable).toOption.getD []) = nrows exTable :=
  (pipeline_types_and_rowcount exTable _ (by decide) (by decide) (by rfl)).2.2.1

/-! ### Claim C7 -/

theorem map_id_of_mem {f : Cell → Cell} {l : List Cell} (h : ∀ x ∈ l, f x = x) :
    l.map f = l := by
  induction l with
  | nil => rfl
  | cons c l ih =>
    rw [List.map_cons, h c (by simp), ih fun x hx => h x (by simp [hx])]

theorem prep_int (z : ℤ) : prepCell (Cell.int z) = Cell.float (z : ℚ) := by
  rw [prepCell, clean_int_to_float, fillZero, if_neg (by simp)]

theorem prep_float {q : ℚ} (h : IsDec q) :
    prepCell (Cell.float q) = Cell.float q := by
  rw [prepCell, clean_float_id h, fillZero, if_neg (by simp)]

theorem intify_intCast (z : ℤ) : intify (Cell.float (z : ℚ)) = Cell.int z := by
  rw [intify]
  show Cell.int (truncQ ((z : ℚ))) = Cell.int z
  rw [truncQ_intCast]

theorem castStr_str (s : String) : castStrCell (Cell.str s) = Cell.str s := rfl

theorem deriveStep_fixpoint {v : Table} (hnd : (names v).Nodup)
    (hE : getCol? v "Engagement Rate (Calculated)" =
      some (List.zipWith engagementRateCell (colD v "avg_likes") (colD v "followers")))
    (hG : getCol? v "Growth Rate in New Post Likes" =
      some (List.zipWith growthRateCell (colD v "new_post_avg_like") (colD v "avg_likes")))
    (hL : getCol? v "Like-to-Follower Ratio" =
      some (List.zipWith likeFollowerCell (colD v "total_likes") (colD v "followers")))
    (hP : getCol? v "Post Efficiency" =
      some (List.zipWith postEfficiencyCell (colD v "total_likes") (colD v "posts"))) :
    deriveStep v = v := by
  simp only [deriveStep]
  rw [setCol_self hnd hE, setCol_self hnd hG, setCol_self hnd hL]
  exact setCol_self hnd hP

/-- Claim C7: the pipeline is idempotent — on the output of a successful run,
a second run succeeds and returns the identical table (in particular,
normalization, zero-filling, casting and the derived-metric computation all
leave an already-cleaned table unchanged). -/
theorem pipeline_idempotent (t out : Table) (hnd : (names t).Nodup)
    (h : pipeline t = Except.ok out) : pipeline out = Except.ok out := by
  obtain ⟨hmc, u, rfl, hnames, hint, hflo, hcou, hcha, hext⟩ := pipeline_ok_desc h
  obtain ⟨hE, hG, hL, hP, hbase⟩ := deriveStep_desc u
  have hndu : (names (deriveStep u)).Nodup :=
    nodup_names_deriveStep (by rw [hnames]; exact hnd)
  have hreq_names : ∀ n ∈ required_columns, n ∈ names (deriveStep u) := by
    intro n hn
    rw [mem_names_deriveStep, hnames]
    exact Or.inl ((hasCol_iff_mem_names t n).mp (hasCol_of_no_missing hmc n hn))
  have hmc2 : missing_columns (deriveStep u) = [] := by
    rw [missing_columns, List.filter_eq_nil_iff]
    intro n hn
    have hhc := (hasCol_iff_mem_names _ n).mpr (hreq_names n hn)
    simp [hhc]
  obtain ⟨u2, hstep2, hpl2, hnames2, hint2, hflo2, hcou2, hcha2, hext2⟩ :=
    pipeline_desc (deriveStep u) hmc2
  have hcells_int : ∀ n ∈ int_columns, ∀ x ∈ colD (deriveStep u) n,
      intify (prepCell x) = x := by
    intro n hn x hx
    obtain ⟨z, rfl⟩ := pipeline_out_int_cells h n hn x hx
    rw [prep_int, intify_intCast]
  have hcells_float : ∀ n ∈ float_columns, ∀ x ∈ colD (deriveStep u) n,
      prepCell x = x := by
    intro n hn x hx
    obtain ⟨q, rfl, hdq⟩ := pipeline_out_float_cells h n hn x hx
    exact prep_float hdq
  have hcells_str : ∀ n, n = "country" ∨ n = "channel_info" →
      ∀ x ∈ colD (deriveStep u) n, castStrCell x = x := by
    intro n hn x hx
    obtain ⟨s, rfl⟩ := pipeline_out_str_cells h n hn x hx
    exact castStr_str s
  have hcols : ∀ n, getCol? u2 n = getCol? (deriveStep u) n := by
    intro n
    by_cases hr : n ∈ required_columns
    · rcases mem_required_classify hr with hi | hf | rfl | rfl
      · rw [hint2 n hi]
        rcases hg : getCol? (deriveStep u) n with _ | L
        · rfl
        · simp only [Option.map_some', Option.some.injEq]
          rw [List.map_map]
          apply map_id_of_mem
          intro x hx
          show intify (prepCell x) = x
          exact hcells_int n hi x (by rw [colD, hg]; simpa using hx)
      · rw [hflo2 n hf]
        rcases hg : getCol? (deriveStep u) n with _ | L
        · rfl
        · simp only [Option.map_some', Option.some.injEq]
          apply map_id_of_mem
          intro x hx
          exact hcells_float n hf x (by rw [colD, hg]; simpa using hx)
      · rw [hcou2]
        rcases hg : getCol? (deriveStep u) "country" with _ | L
        · rfl
        · simp only [Option.map_some', Option.some.injEq]
          apply map_id_of_mem
          intro x hx
          exact hcells_str _ (Or.inl rfl) x (by rw [colD, hg]; simpa using hx)
      · rw [hcha2]
        rcases hg : getCol? (deriveStep u) "channel_info" with _ | L
        · rfl
        · simp only [Option.map_some', Option.some.injEq]
          apply map_id_of_mem
          intro x hx
          exact hcells_str _ (Or.inr rfl) x (by rw [colD, hg]; simpa using hx)
    · exact hext2 n hr
  have hu2 : u2 = deriveStep u :=
    table_ext hnames2 (by rw [hnames2]; exact hndu) hcols
  have hfixE : getCol? (deriveStep u) "Engagement Rate (Calculated)" =
      some (List.zipWith engagementRateCell (colD (deriveStep u) "avg_likes")
        (colD (deriveStep u) "followers")) := by
    rw [colD_congr (hbase "avg_likes" (by decide)),
      colD_congr (hbase "followers" (by decide))]
    exact hE
  have hfixG : getCol? (deriveStep u) "Growth Rate in New Post Likes" =
      some (List.zipWith growthRateCell (colD (deriveStep u) "new_post_avg_like")
        (colD (deriveStep u) "avg_likes")) := by
    rw [colD_congr (hbase "new_post_avg_like" (by decide)),
      colD_congr (hbase "avg_likes" (by decide))]
    exact hG
  have hfixL : getCol? (deriveStep u) "Like-to-Follower Ratio" =
      some (List.zipWith likeFollowerCell (colD (deriveStep u) "total_likes")
        (colD (deriveStep u) "followers")) := by
    rw [colD_congr (hbase "total_likes" (by decide)),
      colD_congr (hbase "followers" (by decide))]
    exact hL
  have hfixP : getCol? (deriveStep u) "Post Efficiency" =
      some (List.zipWith postEfficiencyCell (colD (deriveStep u) "total_likes")
        (colD (deriveStep u) "posts")) := by
    rw [colD_congr (hbase "total_likes" (by decide)),
      colD_congr (hbase "posts" (by decide))]
    exact hP
  rw [hpl2, hu2, deriveStep_fixpoint hndu hfixE hfixG hfixL hfixP]

set_option maxRecDepth 40000 in
/-- Witness for C7: re-running the pipeline on the example table's output
returns that output unchanged. -/
theorem pipeline_idempotent_witness :
    pipeline ((pipeline exTable).toOption.getD []) =
      Except.ok ((pipeline exTable).toOption.getD []) :=
  pipeline_idempotent exTable _ (by decide) (by rfl)

/-! ### Claim C5: a refined float model with overflow to infinity

Python `float()` does not raise on a decimal literal beyond the double
range: it overflows to an infinity (`float('1e999')` is `inf`), and it also
accepts the explicit literals `inf` and `infinity`.  An infinity is not a
missing value (`pd.isna(inf)` is false), so it survives the `fillna(0)` of
Step B, and `astype(int)` raises on it.  The definitions below refine the
rational float model with signed infinities on exactly this path; rounding
of finite values is still not modelled, and the infinity literals are
modelled lowercase (the cleaning path lowercases before parsing). -/

/-- The value of a Python float in the refined model: a finite value (an
exact rational) or a signed infinity (`true` is `+inf`). -/
inductive FVal where
  | fin : ℚ → FVal
  | inf : Bool → FVal
deriving DecidableEq

/-- The overflow threshold of IEEE double rounding: a magnitude of at least
`2^1024 - 2^970` (the midpoint between the largest finite double and
`2^1024`) rounds to infinity. -/
def floatOverflow : ℚ := ((2 ^ 1024 - 2 ^ 970 : ℕ) : ℚ)

/-- Rounding of an exact value into the refined float range: overflow gives
a signed infinity. -/
def ovf (q : ℚ) : FVal :=
  if floatOverflow ≤ q then FVal.inf true
  else if q ≤ -floatOverflow then FVal.inf false
  else FVal.fin q

/-- The body of an infinity literal accepted by Python `float()`. -/
def isInfBody (l : List Char) : Bool :=
  l == ['i', 'n', 'f'] || l == ['i', 'n', 'f', 'i', 'n', 'i', 't', 'y']

/-- An optionally signed infinity literal. -/
def signedInf? (l : List Char) : Option FVal :=
  match l with
  | '-' :: r => if isInfBody r then some (FVal.inf false) else none
  | '+' :: r => if isInfBody r then some (FVal.inf true) else none
  | r => if isInfBody r then some (FVal.inf true) else none

/-- Refined model of Python `float(s)`: the explicit infinity literals,
else the finite-literal grammar of `pyFloat?` with overflow to infinity. -/
def pyFloatF? (l : List Char) : Option FVal :=
  (signedInf? (pyStrip l)).or ((pyFloat? l).map ovf)

/-- The `k`/`m` scale factor applied to a refined float: a finite product
can itself overflow, an infinity stays an infinity. -/
def fvalScale (v : FVal) (k : ℕ) : FVal :=
  match v with
  | FVal.fin q => ovf (q * k)
  | FVal.inf b => FVal.inf b

/-- Refined branching of `clean_numeric_value` after preprocessing. -/
def cleanCharsF (l : List Char) : Option FVal :=
  let s := cleanPrep l
  if hasChar s 'k' then (pyFloatF? (removeAll 'k' s)).map (fun v => fvalScale v 1000)
  else if hasChar s 'm' then (pyFloatF? (removeAll 'm' s)).map (fun v => fvalScale v 1000000)
  else pyFloatF? s

/-- A cell of a pandas table in the refined model. -/
inductive CellF where
  | null : CellF
  | str : String → CellF
  | int : ℤ → CellF
  | float : FVal → CellF
deriving DecidableEq

/-- Model of Python `str(value)` on refined cells (`str(float('inf'))` is
`"inf"`). -/
def pyStrF : CellF → List Char
  | CellF.null => ['n', 'a', 'n']
  | CellF.str s => s.data
  | CellF.int n => renderInt n
  | CellF.float (FVal.fin q) => renderQ q
  | CellF.float (FVal.inf true) => ['i', 'n', 'f']
  | CellF.float (FVal.inf false) => ['-', 'i', 'n', 'f']

/-- Model of Python `str(value)` returning a `String`, refined cells. -/
def pyStrOfF (c : CellF) : String :=
  match c with
  | CellF.str s => s
  | c => String.mk (pyStrF c)

/-- `clean_numeric_value` in the refined model: an infinite parse result is
a value, not a missing cell (`pd.isna(inf)` is false). -/
def clean_numeric_valueF (v : CellF) : CellF :=
  match v with
  | CellF.null => CellF.null
  | v =>
    match cleanCharsF (pyStrF v) with
    | some f => CellF.float f
    | none => CellF.null

/-- A refined table: a list of named columns, in order. -/
abbrev TableF := List (String × List CellF)

/-- Model of `col in df.columns`, refined tables. -/
def hasColF (t : TableF) (n : String) : Bool := t.any (fun p => p.1 == n)

/-- The values of the (first) column named `n`, if present. -/
def getColF? (t : TableF) (n : String) : Option (List CellF) :=
  (t.find? (fun p => p.1 == n)).map Prod.snd

/-- The values of the column named `n`, or `[]` when absent. -/
def colDF (t : TableF) (n : String) : List CellF := (getColF? t n).getD []

/-- Model of `df[n] = df[n].apply(f)`, refined tables. -/
def mapColF (t : TableF) (n : String) (f : CellF → CellF) : TableF :=
  t.map (fun p => if p.1 == n then (p.1, p.2.map f) else p)

/-- Model of `df[n] = v`: replace the column in place, or append it. -/
def setColF (t : TableF) (n : String) (v : List CellF) : TableF :=
  if hasColF t n then t.map (fun p => if p.1 == n then (p.1, v) else p)
  else t ++ [(n, v)]

/-- The schema check over refined tables. -/
def missing_columnsF (t : TableF) : List String :=
  required_columns.filter (fun c => !hasColF t c)

/-- Step A over refined tables. -/
def cleanStepF (t : TableF) : TableF :=
  columns_to_clean.foldl (fun a c => mapColF a c clean_numeric_valueF) t

/-- One cell of `fillna(0)`: an infinity is not null and is NOT filled. -/
def fillZeroF (c : CellF) : CellF :=
  if c = CellF.null then CellF.float (FVal.fin 0) else c

/-- Step B over refined tables. -/
def fillStepF (t : TableF) : TableF :=
  numeric_columns.foldl (fun a c => mapColF a c fillZeroF) t

/-- Step A then Step B on one refined cell. -/
def prepCellF (c : CellF) : CellF := fillZeroF (clean_numeric_valueF c)

/-- Whether a refined cell holds an infinity. -/
def isInfCell : CellF → Bool
  | CellF.float (FVal.inf _) => true
  | _ => false

/-- One cell of `astype(int)` in the refined model: a finite float
truncates, but the cast raises on an infinity (it has no integer value),
exactly as on a missing value. -/
def castIntCellF : CellF → Option CellF
  | CellF.float (FVal.fin q) => some (CellF.int (truncQ q))
  | CellF.float (FVal.inf _) => none
  | CellF.int n => some (CellF.int n)
  | CellF.str s => (pyInt? s.data).map CellF.int
  | CellF.null => none

/-- One cell of `astype(float)` in the refined model: an infinity is itself
a float and survives the cast. -/
def castFloatCellF : CellF → Option CellF
  | CellF.float v => some (CellF.float v)
  | CellF.int n => some (CellF.float (FVal.fin (n : ℚ)))
  | CellF.str s => (pyFloatF? s.data).map CellF.float
  | CellF.null => some CellF.null

/-- One cell of `astype(str)`: always succeeds. -/
def castStrCellF (c : CellF) : CellF := CellF.str (pyStrOfF c)

/-- Apply a fallible cast to every cell; any failure fails the column. -/
def mapCellsF (f : CellF → Option CellF) : List CellF → Option (List CellF)
  | [] => some []
  | c :: l =>
    match f c, mapCellsF f l with
    | some c', some l' => some (c' :: l')
    | _, _ => none

/-- Model of `df[n] = df[n].astype(...)`, refined tables. -/
def castColF (t : TableF) (n : String) (f : CellF → Option CellF) : Option TableF :=
  match getColF? t n with
  | none => none
  | some col => (mapCellsF f col).map (fun v => setColF t n v)

/-- Step C over refined tables: the ten `astype` conversions in source
order; `none` models the `except` branch reporting a type-conversion
error. -/
def castStepF (t : TableF) : Option TableF := do
  let t ← castColF t "rank" castIntCellF
  let t ← castColF t "influence_score" castFloatCellF
  let t ← castColF t "posts" castIntCellF
  let t ← castColF t "followers" castIntCellF
  let t ← castColF t "avg_likes" castFloatCellF
  let t ← castColF t "60_day_eng_rate" castFloatCellF
  let t ← castColF t "new_post_avg_like" castFloatCellF
  let t ← castColF t "total_likes" castIntCellF
  let t ← castColF t "country" (fun c => some (castStrCellF c))
  castColF t "channel_info" (fun c => some (castStrCellF c))

/-- The run through the schema check and Steps A-C in the refined model
(the derived-metric step is downstream of the cast and cannot influence
whether the cast fails). -/
def pipelineCastF (t : TableF) : Except RunError TableF :=
  if missing_columnsF t ≠ [] then
    Except.error (RunError.missingColumns (missing_columnsF t))
  else
    match castStepF (fillStepF (cleanStepF t)) with
    | none => Except.error RunError.typeConversion
    | some u => Except.ok u

/-! ### Refined-table operation lemmas -/

theorem find?_colF_cons_pos {p0 : String × List CellF} {t : TableF} {n : String}
    (h : (p0.1 == n) = true) :
    (p0 :: t).find? (fun q => q.1 == n) = some p0 :=
  List.find?_cons_of_pos _ h

theorem find?_colF_cons_neg {p0 : String × List CellF} {t : TableF} {n : String}
    (h : ¬((p0.1 == n) = true)) :
    (p0 :: t).find? (fun q => q.1 == n) = t.find? (fun q => q.1 == n) :=
  List.find?_cons_of_neg _ h

theorem getColF?_isSome_of_hasColF {t : TableF} {n : String}
    (h : hasColF t n = true) : ∃ col, getColF? t n = some col := by
  rw [hasColF, List.any_eq_true] at h
  obtain ⟨p, hp, hpe⟩ := h
  induction t with
  | nil => simp at hp
  | cons p0 t ih =>
    by_cases h0 : p0.1 == n
    · exact ⟨p0.2, by rw [getColF?, find?_colF_cons_pos h0]; rfl⟩
    · rcases List.mem_cons.mp hp with rfl | hp'
      · exact absurd hpe h0
      · obtain ⟨col, hcol⟩ := ih hp'
        exact ⟨col, by rw [getColF?, find?_colF_cons_neg h0]; exact hcol⟩

theorem getColF?_mapColF_same (t : TableF) (n : String) (f : CellF → CellF) :
    getColF? (mapColF t n f) n = (getColF? t n).map (List.map f) := by
  induction t with
  | nil => rfl
  | cons p t ih =>
    simp only [mapColF, List.map_cons] at *
    by_cases hp : p.1 == n
    · rw [if_pos hp, getColF?,
        find?_colF_cons_pos (show (((p.1, List.map f p.2)).1 == n) = true from hp),
        getColF?, find?_colF_cons_pos hp]
      rfl
    · rw [if_neg hp, getColF?, find?_colF_cons_neg hp, getColF?, find?_colF_cons_neg hp]
      exact ih

theorem getColF?_mapColF_ne (t : TableF) {n n' : String} (f : CellF → CellF)
    (h : n' ≠ n) : getColF? (mapColF t n f) n' = getColF? t n' := by
  induction t with
  | nil => rfl
  | cons p t ih =>
    simp only [mapColF, List.map_cons] at *
    by_cases hp : p.1 == n
    · have hp' : ¬((p.1 == n') = true) := by
        rw [beq_iff_eq] at hp ⊢
        rw [hp]
        exact fun he => h he.symm
      rw [if_pos hp, getColF?,
        find?_colF_cons_neg (show ¬((((p.1, List.map f p.2)).1 == n') = true) from hp'),
        getColF?, find?_colF_cons_neg hp']
      exact ih
    · rw [if_neg hp]
      by_cases hq : p.1 == n'
      · rw [getColF?, find?_colF_cons_pos hq, getColF?, find?_colF_cons_pos hq]
      · rw [getColF?, find?_colF_cons_neg hq, getColF?, find?_colF_cons_neg hq]
        exact ih

theorem getColF?_setColF_same {t : TableF} {n : String} (v : List CellF)
    (h : hasColF t n = true) : getColF? (setColF t n v) n = some v := by
  rw [setColF, if_pos h]
  rw [hasColF, List.any_eq_true] at h
  obtain ⟨p, hp, hpe⟩ := h
  induction t with
  | nil => simp at hp
  | cons p0 t ih =>
    simp only [List.map_cons]
    by_cases h0 : p0.1 == n
    · rw [if_pos h0, getColF?,
        find?_colF_cons_pos (show (((p0.1, v)).1 == n) = true from h0)]
      rfl
    · rcases List.mem_cons.mp hp with rfl | hp'
      · exact absurd hpe h0
      · rw [if_neg h0, getColF?, find?_colF_cons_neg h0]
        exact ih hp'

theorem getColF?_setColF_append {t : TableF} {n : String} (v : List CellF)
    (h : hasColF t n = false) : getColF? (setColF t n v) n = some v := by
  rw [setColF, if_neg (by simp [h])]
  rw [hasColF, List.any_eq_false] at h
  induction t with
  | nil =>
    rw [List.nil_append, getColF?, find?_colF_cons_pos (by simp)]
    rfl
  | cons p0 t ih =>
    have h0 : ¬((p0.1 == n) = true) := by
      have := h p0 (by simp)
      simpa using this
    rw [List.cons_append, getColF?, find?_colF_cons_neg h0]
    exact ih fun p hp => h p (by simp [hp])

theorem getColF?_setColF (t : TableF) (n : String) (v : List CellF) :
    getColF? (setColF t n v) n = some v := by
  by_cases h : hasColF t n
  · exact getColF?_setColF_same v h
  · exact getColF?_setColF_append v (by simpa using h)

theorem getColF?_setColF_ne (t : TableF) {n n' : String} (v : List CellF)
    (h : n' ≠ n) : getColF? (setColF t n v) n' = getColF? t n' := by
  rw [setColF]
  by_cases hh : hasColF t n
  · rw [if_pos hh]
    clear hh
    induction t with
    | nil => rfl
    | cons p0 t ih =>
      simp only [List.map_cons]
      by_cases h0 : p0.1 == n
      · have h0' : ¬((p0.1 == n') = true) := by
          rw [beq_iff_eq] at h0 ⊢
          rw [h0]
          exact fun he => h he.symm
        rw [if_pos h0, getColF?,
          find?_colF_cons_neg (show ¬((((p0.1, v)).1 == n') = true) from h0'),
          getColF?, find?_colF_cons_neg h0']
        exact ih
      · rw [if_neg h0]
        by_cases hq : p0.1 == n'
        · rw [getColF?, find?_colF_cons_pos hq, getColF?, find?_colF_cons_pos hq]
        · rw [getColF?, find?_colF_cons_neg hq, getColF?, find?_colF_cons_neg hq]
          exact ih
  · rw [if_neg hh]
    clear hh
    induction t with
    | nil =>
      rw [List.nil_append, getColF?,
        find?_colF_cons_neg (by simp; exact fun he => h he.symm)]
      rfl
    | cons p0 t ih =>
      rw [List.cons_append]
      by_cases hq : p0.1 == n'
      · rw [getColF?, find?_colF_cons_pos hq, getColF?, find?_colF_cons_pos hq]
      · rw [getColF?, find?_colF_cons_neg hq, getColF?, find?_colF_cons_neg hq]
        exact ih

theorem getColF?_foldl_mapColF (ns : List String) (f : CellF → CellF) (t : TableF)
    (n : String) (hnd : ns.Nodup) :
    getColF? (ns.foldl (fun a c => mapColF a c f) t) n =
      if n ∈ ns then (getColF? t n).map (List.map f) else getColF? t n := by
  induction ns generalizing t with
  | nil => simp
  | cons c ns ih =>
    have hnd' := List.nodup_cons.mp hnd
    simp only [List.foldl_cons]
    rw [ih (mapColF t c f) hnd'.2]
    by_cases hc : n = c
    · subst hc
      rw [if_neg hnd'.1, if_pos (by simp), getColF?_mapColF_same]
    · rw [getColF?_mapColF_ne t f hc]
      by_cases hmem : n ∈ ns
      · rw [if_pos hmem, if_pos (by simp [hmem])]
      · rw [if_neg hmem, if_neg (by simp [hc, hmem])]

theorem getColF?_cleanStepF (t : TableF) (n : String) :
    getColF? (cleanStepF t) n =
      if n ∈ numeric_columns then
        (getColF? t n).map (List.map clean_numeric_valueF)
      else getColF? t n := by
  rw [cleanStepF, getColF?_foldl_mapColF _ _ _ _ nodup_columns_to_clean]
  by_cases h : n ∈ numeric_columns
  · rw [if_pos ((mem_clean_iff_mem_numeric n).mpr h), if_pos h]
  · rw [if_neg (fun hc => h ((mem_clean_iff_mem_numeric n).mp hc)), if_neg h]

theorem getColF?_fillStepF (t : TableF) (n : String) :
    getColF? (fillStepF t) n =
      if n ∈ numeric_columns then (getColF? t n).map (List.map fillZeroF)
      else getColF? t n := by
  rw [fillStepF, getColF?_foldl_mapColF _ _ _ _ nodup_numeric_columns]

/-- Step A then Step B on a numeric column, refined tables. -/
theorem getColF?_prepF (t : TableF) (n : String) (hn : n ∈ numeric_columns) :
    getColF? (fillStepF (cleanStepF t)) n =
      (getColF? t n).map (List.map prepCellF) := by
  rw [getColF?_fillStepF, if_pos hn, getColF?_cleanStepF, if_pos hn]
  cases getColF? t n with
  | none => rfl
  | some col =>
    simp only [Option.map_some', List.map_map]
    rfl

theorem getColF?_prepF_ne (t : TableF) (n : String) (hn : n ∉ numeric_columns) :
    getColF? (fillStepF (cleanStepF t)) n = getColF? t n := by
  rw [getColF?_fillStepF, if_neg hn, getColF?_cleanStepF, if_neg hn]

theorem hasColF_of_no_missing {t : TableF} (hmc : missing_columnsF t = []) :
    ∀ n ∈ required_columns, hasColF t n = true := by
  intro n hn
  by_cases h : hasColF t n
  · exact h
  · have hmem : n ∈ missing_columnsF t :=
      List.mem_filter.mpr ⟨hn, by simp [h]⟩
    rw [hmc] at hmem
    simp at hmem

/-! ### Shapes of prepared refined cells -/

theorem cleanF_shape (v : CellF) :
    clean_numeric_valueF v = CellF.null ∨
      ∃ f, clean_numeric_valueF v = CellF.float f := by
  cases v with
  | null => exact Or.inl rfl
  | str s =>
    rcases h : cleanCharsF (pyStrF (CellF.str s)) with _ | f
    · exact Or.inl (by simp [clean_numeric_valueF, h])
    · exact Or.inr ⟨f, by simp [clean_numeric_valueF, h]⟩
  | int n =>
    rcases h : cleanCharsF (pyStrF (CellF.int n)) with _ | f
    · exact Or.inl (by simp [clean_numeric_valueF, h])
    · exact Or.inr ⟨f, by simp [clean_numeric_valueF, h]⟩
  | float x =>
    rcases h : cleanCharsF (pyStrF (CellF.float x)) with _ | f
    · exact Or.inl (by simp [clean_numeric_valueF, h])
    · exact Or.inr ⟨f, by simp [clean_numeric_valueF, h]⟩

/-- A prepared refined cell is always a float (finite or infinite). -/
theorem prepF_float (c : CellF) : ∃ v, prepCellF c = CellF.float v := by
  rcases cleanF_shape c with hc | ⟨f, hf⟩
  · exact ⟨FVal.fin 0, by rw [prepCellF, hc]; rfl⟩
  · exact ⟨f, by rw [prepCellF, hf, fillZeroF, if_neg (by simp)]⟩

/-- A prepared refined cell is a FINITE float when the normalization result
is not an infinity. -/
theorem prepF_fin {c : CellF} (h : isInfCell (clean_numeric_valueF c) = false) :
    ∃ q, prepCellF c = CellF.float (FVal.fin q) := by
  rcases cleanF_shape c with hc | ⟨f, hf⟩
  · exact ⟨0, by rw [prepCellF, hc]; rfl⟩
  · cases f with
    | fin q => exact ⟨q, by rw [prepCellF, hf, fillZeroF, if_neg (by simp)]⟩
    | inf b =>
      rw [hf] at h
      simp [isInfCell] at h

/-! ### Refined cast-step lemmas -/

theorem mapCellsF_total (g : CellF → CellF) (col : List CellF) :
    mapCellsF (fun c => some (g c)) col = some (col.map g) := by
  induction col with
  | nil => rfl
  | cons c col ih => rw [mapCellsF, ih, List.map_cons]

theorem mapCellsF_int {col : List CellF}
    (h : ∀ c ∈ col, ∃ q, c = CellF.float (FVal.fin q)) :
    ∃ v, mapCellsF castIntCellF col = some v := by
  induction col with
  | nil => exact ⟨[], rfl⟩
  | cons c col ih =>
    obtain ⟨q, rfl⟩ := h c (by simp)
    obtain ⟨v, hv⟩ := ih fun c hc => h c (by simp [hc])
    refine ⟨CellF.int (truncQ q) :: v, ?_⟩
    rw [mapCellsF, hv]
    rfl

theorem mapCellsF_float {col : List CellF}
    (h : ∀ c ∈ col, ∃ v, c = CellF.float v) :
    mapCellsF castFloatCellF col = some col := by
  induction col with
  | nil => rfl
  | cons c col ih =>
    obtain ⟨v, rfl⟩ := h c (by simp)
    rw [mapCellsF, ih fun c hc => h c (by simp [hc])]
    rfl

theorem castColF_eq {t : TableF} {n : String} {f : CellF → Option CellF}
    {col v : List CellF} (hget : getColF? t n = some col)
    (hmap : mapCellsF f col = some v) :
    castColF t n f = some (setColF t n v) := by
  rw [castColF, hget]
  simp only [hmap, Option.map_some']

/-- The refined cast step succeeds when the integer columns hold only
finite floats, the float columns hold only floats, and the two text
columns are present. -/
theorem castStepF_ok (t : TableF)
    (hint : ∀ n ∈ int_columns, ∃ col, getColF? t n = some col ∧
        ∀ c ∈ col, ∃ q, c = CellF.float (FVal.fin q))
    (hflo : ∀ n ∈ float_columns, ∃ col, getColF? t n = some col ∧
        ∀ c ∈ col, ∃ v, c = CellF.float v)
    (hco : ∃ c0, getColF? t "country" = some c0)
    (hch : ∃ c0, getColF? t "channel_info" = some c0) :
    ∃ u, castStepF t = some u := by
  obtain ⟨cR, hR, hRf⟩ := hint "rank" (by decide)
  obtain ⟨cI, hI, hIf⟩ := hflo "influence_score" (by decide)
  obtain ⟨cP, hP, hPf⟩ := hint "posts" (by decide)
  obtain ⟨cF, hF, hFf⟩ := hint "followers" (by decide)
  obtain ⟨cA, hA, hAf⟩ := hflo "avg_likes" (by decide)
  obtain ⟨cE, hE, hEf⟩ := hflo "60_day_eng_rate" (by decide)
  obtain ⟨cN, hN, hNf⟩ := hflo "new_post_avg_like" (by decide)
  obtain ⟨cT, hT, hTf⟩ := hint "total_likes" (by decide)
  obtain ⟨cC, hC⟩ := hco
  obtain ⟨cH, hH⟩ := hch
  obtain ⟨vR, hvR⟩ := mapCellsF_int hRf
  obtain ⟨vP, hvP⟩ := mapCellsF_int hPf
  obtain ⟨vF, hvF⟩ := mapCellsF_int hFf
  obtain ⟨vT, hvT⟩ := mapCellsF_int hTf
  set u1 := setColF t "rank" vR with hu1
  have g2 : getColF? u1 "influence_score" = some cI := by
    simp [hu1, getColF?_setColF_ne, hI]
  set u2 := setColF u1 "influence_score" cI with hu2
  have g3 : getColF? u2 "posts" = some cP := by
    simp [hu2, hu1, getColF?_setColF_ne, hP]
  set u3 := setColF u2 "posts" vP with hu3
  have g4 : getColF? u3 "followers" = some cF := by
    simp [hu3, hu2, hu1, getColF?_setColF_ne, hF]
  set u4 := setColF u3 "followers" vF with hu4
  have g5 : getColF? u4 "avg_likes" = some cA := by
    simp [hu4, hu3, hu2, hu1, getColF?_setColF_ne, hA]
  set u5 := setColF u4 "avg_likes" cA with hu5
  have g6 : getColF? u5 "60_day_eng_rate" = some cE := by
    simp [hu5, hu4, hu3, hu2, hu1, getColF?_setColF_ne, hE]
  set u6 := setColF u5 "60_day_eng_rate" cE with hu6
  have g7 : getColF? u6 "new_post_avg_like" = some cN := by
    simp [hu6, hu5, hu4, hu3, hu2, hu1, getColF?_setColF_ne, hN]
  set u7 := setColF u6 "new_post_avg_like" cN with hu7
  have g8 : getColF? u7 "total_likes" = some cT := by
    simp [hu7, hu6, hu5, hu4, hu3, hu2, hu1, getColF?_setColF_ne, hT]
  set u8 := setColF u7 "total_likes" vT with hu8
  have g9 : getColF? u8 "country" = some cC := by
    simp [hu8, hu7, hu6, hu5, hu4, hu3, hu2, hu1, getColF?_setColF_ne, hC]
  set u9 := setColF u8 "country" (cC.map castStrCellF) with hu9
  have g10 : getColF? u9 "channel_info" = some cH := by
    simp [hu9, hu8, hu7, hu6, hu5, hu4, hu3, hu2, hu1, getColF?_setColF_ne, hH]
  refine ⟨setColF u9 "channel_info" (cH.map castStrCellF), ?_⟩
  rw [castStepF]
  rw [castColF_eq hR hvR, Option.bind_eq_bind', Option.some_bind', ← hu1]
  rw [castColF_eq g2 (mapCellsF_float hIf), Option.bind_eq_bind', Option.some_bind', ← hu2]
  rw [castColF_eq g3 hvP, Option.bind_eq_bind', Option.some_bind', ← hu3]
  rw [castColF_eq g4 hvF, Option.bind_eq_bind', Option.some_bind', ← hu4]
  rw [castColF_eq g5 (mapCellsF_float hAf), Option.bind_eq_bind', Option.some_bind', ← hu5]
  rw [castColF_eq g6 (mapCellsF_float hEf), Option.bind_eq_bind', Option.some_bind', ← hu6]
  rw [castColF_eq g7 (mapCellsF_float hNf), Option.bind_eq_bind', Option.some_bind', ← hu7]
  rw [castColF_eq g8 hvT, Option.bind_eq_bind', Option.some_bind', ← hu8]
  rw [castColF_eq g9 (mapCellsF_total castStrCellF cC), Option.bind_eq_bind',
    Option.some_bind', ← hu9]
  rw [castColF_eq g10 (mapCellsF_total castStrCellF cH)]

/-! ### The overflowing literal `1e999` -/

/-- The finite grammar parses `1e999` to the exact value `1 * 10 ^ 999`. -/
theorem parse_1e999 :
    pyFloat? ("1e999".data) = some (((1 : ℕ) : ℚ) * 10 ^ (((999 : ℕ)) : ℤ)) := by
  with_unfolding_all rfl

theorem overflow_le_pow999 : (2 ^ 1024 - 2 ^ 970 : ℕ) ≤ 10 ^ 999 := by
  have h25 : (2 : ℕ) ^ 25 ≤ 5 ^ 999 :=
    le_trans (Nat.pow_le_pow_left (by norm_num) 25)
      (Nat.pow_le_pow_right (by norm_num) (by norm_num))
  calc 2 ^ 1024 - 2 ^ 970 ≤ 2 ^ 1024 := Nat.sub_le _ _
  _ = 2 ^ 25 * 2 ^ 999 := by rw [← pow_add]
  _ ≤ 5 ^ 999 * 2 ^ 999 := Nat.mul_le_mul_right _ h25
  _ = 10 ^ 999 := by rw [← Nat.mul_pow]

/-- `10 ^ 999` overflows to positive infinity. -/
theorem ovf_1e999 : ovf (((1 : ℕ) : ℚ) * 10 ^ (((999 : ℕ)) : ℤ)) = FVal.inf true := by
  have h1 : (((1 : ℕ) : ℚ) * 10 ^ (((999 : ℕ)) : ℤ)) = ((10 ^ 999 : ℕ) : ℚ) := by
    rw [zpow_natCast, Nat.cast_one, one_mul, Nat.cast_pow, Nat.cast_ofNat]
  rw [h1, ovf, if_pos (by rw [floatOverflow]; exact_mod_cast overflow_le_pow999)]

/-- Normalizing the cell `"1e999"` yields positive infinity, not a missing
value. -/
theorem cleanF_1e999 :
    clean_numeric_valueF (CellF.str "1e999") = CellF.float (FVal.inf true) := by
  have h3 : cleanCharsF ("1e999".data) = (pyFloat? ("1e999".data)).map ovf := by
    with_unfolding_all rfl
  have h4 : cleanCharsF ("1e999".data) = some (FVal.inf true) := by
    rw [h3, parse_1e999, Option.map_some', ovf_1e999]
  simp [clean_numeric_valueF, pyStrF, h4]

/-- The infinity survives the zero-fill of Step B. -/
theorem prepF_1e999 :
    prepCellF (CellF.str "1e999") = CellF.float (FVal.inf true) := by
  rw [prepCellF, cleanF_1e999, fillZeroF, if_neg (by simp)]

/-- A schema-valid one-row table whose `rank` cell is the overflowing
numeric literal `"1e999"`. -/
def exOverflow : TableF :=
  [("rank", [CellF.str "1e999"]),
   ("influence_score", [CellF.str "9"]),
   ("posts", [CellF.str "10"]),
   ("followers", [CellF.str "200"]),
   ("avg_likes", [CellF.str "150"]),
   ("60_day_eng_rate", [CellF.str "4%"]),
   ("new_post_avg_like", [CellF.str "200"]),
   ("total_likes", [CellF.str "500"]),
   ("country", [CellF.str "usa"]),
   ("channel_info", [CellF.str "x"])]

/-- Claim C5 as stated is false: on the schema-valid table whose `rank`
cell is `"1e999"`, normalization overflows to infinity, the infinity is not
null and survives the zero-fill, the integer cast of `rank` raises, and the
run terminates in the type-conversion fatal branch. -/
theorem cast_overflow_cex :
    missing_columnsF exOverflow = [] ∧
      pipelineCastF exOverflow = Except.error RunError.typeConversion := by
  have hmc : missing_columnsF exOverflow = [] := by rfl
  have hrank : getColF? (fillStepF (cleanStepF exOverflow)) "rank" =
      some [CellF.float (FVal.inf true)] := by
    rw [getColF?_prepF exOverflow "rank" (by decide),
      show getColF? exOverflow "rank" = some [CellF.str "1e999"] from rfl]
    simp only [Option.map_some', List.map_cons, List.map_nil]
    rw [prepF_1e999]
  have hcast : castColF (fillStepF (cleanStepF exOverflow)) "rank" castIntCellF =
      none := by
    rw [castColF, hrank]
    rfl
  have hstep : castStepF (fillStepF (cleanStepF exOverflow)) = none := by
    rw [castStepF, hcast]
    rfl
  refine ⟨hmc, ?_⟩
  rw [pipelineCastF, if_neg (by simp [hmc]), hstep]

/-- Claim C5, amended: the Step C casts can fail only through a non-finite
float.  On every schema-valid table in which no numeric cell normalizes to
an infinity (Python float overflow, such as `1e999`, or an explicit
`inf`/`infinity` literal), every cast succeeds, the type-conversion fatal
branch is not taken, and the run through Steps A-C returns a table. -/
theorem cast_fails_only_on_overflow (t : TableF) (hmc : missing_columnsF t = [])
    (hfin : ∀ n ∈ numeric_columns, ∀ c ∈ colDF t n,
      isInfCell (clean_numeric_valueF c) = false) :
    castStepF (fillStepF (cleanStepF t)) ≠ none ∧
      pipelineCastF t ≠ Except.error RunError.typeConversion ∧
      ∃ u, pipelineCastF t = Except.ok u := by
  have hint : ∀ n ∈ int_columns, ∃ col,
      getColF? (fillStepF (cleanStepF t)) n = some col ∧
      ∀ c ∈ col, ∃ q, c = CellF.float (FVal.fin q) := by
    intro n hn
    have hnn := mem_int_mem_numeric hn
    obtain ⟨col, hcol⟩ := getColF?_isSome_of_hasColF
      (hasColF_of_no_missing hmc n (mem_numeric_mem_required hnn))
    refine ⟨col.map prepCellF, by rw [getColF?_prepF t n hnn, hcol]; rfl, ?_⟩
    intro c hc
    obtain ⟨c0, hc0, rfl⟩ := List.mem_map.mp hc
    exact prepF_fin (hfin n hnn c0 (by rw [colDF, hcol]; exact hc0))
  have hflo : ∀ n ∈ float_columns, ∃ col,
      getColF? (fillStepF (cleanStepF t)) n = some col ∧
      ∀ c ∈ col, ∃ v, c = CellF.float v := by
    intro n hn
    have hnn := mem_float_mem_numeric hn
    obtain ⟨col, hcol⟩ := getColF?_isSome_of_hasColF
      (hasColF_of_no_missing hmc n (mem_numeric_mem_required hnn))
    refine ⟨col.map prepCellF, by rw [getColF?_prepF t n hnn, hcol]; rfl, ?_⟩
    intro c hc
    obtain ⟨c0, _, rfl⟩ := List.mem_map.mp hc
    exact prepF_float c0
  have hco : ∃ c0, getColF? (fillStepF (cleanStepF t)) "country" = some c0 := by
    rw [getColF?_prepF_ne t _ (by decide)]
    exact getColF?_isSome_of_hasColF (hasColF_of_no_missing hmc _ (by decide))
  have hch : ∃ c0, getColF? (fillStepF (cleanStepF t)) "channel_info" = some c0 := by
    rw [getColF?_prepF_ne t _ (by decide)]
    exact getColF?_isSome_of_hasColF (hasColF_of_no_missing hmc _ (by decide))
  obtain ⟨u, hstep⟩ := castStepF_ok _ hint hflo hco hch
  refine ⟨by rw [hstep]; simp, ?_, u, ?_⟩
  · rw [pipelineCastF, if_neg (by simp [hmc]), hstep]
    simp
  · rw [pipelineCastF, if_neg (by simp [hmc]), hstep]

/-- A schema-valid two-row table of finite values (including a `k` suffix,
percent signs and one garbage cell), for the amended claim's witness. -/
def exTableF : TableF :=
  [("rank", [CellF.str "1", CellF.str "2"]),
   ("influence_score", [CellF.str "9", CellF.str "8"]),
   ("posts", [CellF.str "10", CellF.str "abc"]),
   ("followers", [CellF.str "3.3k", CellF.str "200"]),
   ("avg_likes", [CellF.str "150", CellF.str "6"]),
   ("60_day_eng_rate", [CellF.str "4%", CellF.str "2%"]),
   ("new_post_avg_like", [CellF.str "200", CellF.str "8"]),
   ("total_likes", [CellF.str "500", CellF.str "60"]),
   ("country", [CellF.str "usa", CellF.str "brazil"]),
   ("channel_info", [CellF.str "x", CellF.str "y"])]

set_option maxRecDepth 40000 in
/-- Witness for the amended C5 on the concrete finite example table. -/
theorem cast_fails_only_on_overflow_witness :
    missing_columnsF exTableF = [] ∧
      (∀ n ∈ numeric_columns, ∀ c ∈ colDF exTableF n,
        isInfCell (clean_numeric_valueF c) = false) ∧
      ∃ u, pipelineCastF exTableF = Except.ok u :=
  ⟨by rfl, of_decide_eq_true (by with_unfolding_all rfl),
    (cast_fails_only_on_overflow exTableF (by rfl)
      (of_decide_eq_true (by with_unfolding_all rfl))).2.2⟩

end Incal
